import Mathlib

/-!
# hex-code-annotator: orchestrator and processor

A shallow embedding of the two Go programs of the repository
(`src/orchestrator/main.go` and `src/processor/main.go`) and the properties
proved about them.

Conventions of the embedding.

* A Go `string` is a sequence of bytes: `GoString := List UInt8`.  String
  literals of the source are written `ascii "..."` (all of them are ASCII).
* A Go `int` is a 64-bit two's-complement integer: an `Int` kept in range by
  `wrapInt` after every addition.
* A function that can panic (index out of range, failed type assertion)
  returns `Option`, with `none` for the panic.
* A channel the code only sends on, or only receives from, is the list of what
  goes through it, in order (`ChanEvent`).  Goroutines that interact are a
  transition system: a state, a set of actions, a step function that returns
  `none` when the action is not enabled (the goroutine is blocked), and
  executions that are lists of actions (`Stage.run`, `Handler.run`).
-/

/-! ## Go strings -/

/-- A Go string: an immutable sequence of bytes. -/
abbrev GoString := List UInt8

/-- The bytes of an ASCII string literal of the source. -/
def ascii (s : String) : GoString := s.toList.map (fun c => c.toNat.toUInt8)

/-- The byte of the path separator, the character of the literal "/". -/
def slash : UInt8 := 47

/-- Go's `strings.Split(s, "/")`: the substrings between the separators; a
string without separator gives the one-element list holding that string. -/
def stringsSplit : GoString → List GoString
  | [] => [[]]
  | c :: cs =>
    if c = slash then [] :: stringsSplit cs
    else
      match stringsSplit cs with
      | [] => [[c]]
      | s :: ss => (c :: s) :: ss

/-- Go's `strings.Join(segs, "/")`: the segments with one separator between
each two neighbours. -/
def stringsJoin : List GoString → GoString
  | [] => []
  | [s] => s
  | s :: t :: ss => s ++ slash :: stringsJoin (t :: ss)

/-! ## Channels -/

/-- One operation on the sending side of a channel: a send that was delivered,
or the close. -/
inductive ChanEvent (α : Type) where
  | send (v : α)
  | close
  deriving DecidableEq, Repr

/-! ## Orchestrator (`src/orchestrator/main.go`) -/

namespace Orchestrator

/-- The local `charset` of `makePrefixListTwoHexChars`. -/
def charset : GoString := ascii "0123456789abcdef"

/-- Source `makePrefixListTwoHexChars`: two nested `range` loops over `charset`, each
iteration appending `prefix + "/" + string(char1) + string(char2)`. -/
def makePrefixListTwoHexChars (pfx : GoString) : List GoString :=
  charset.foldl
    (fun charsetTwoChars char1 =>
      charset.foldl
        (fun charsetTwoChars char2 =>
          charsetTwoChars ++ [pfx ++ ascii "/" ++ [char1] ++ [char2]])
        charsetTwoChars)
    []

/-- The `i`-th character of `charset` (0 outside the string). -/
def hexChar (i : Nat) : UInt8 := charset.getD i 0

/-- Width of Go's `int` on the 64-bit targets the program is built for. -/
def intBits : Nat := 64

/-- Smallest value of a Go `int`. -/
def minInt : Int := -(2 ^ (intBits - 1))

/-- Largest value of a Go `int`. -/
def maxInt : Int := 2 ^ (intBits - 1) - 1

/-- Reduction of a mathematical integer to the two's-complement range of `int`. -/
def wrapInt (z : Int) : Int := (z + 2 ^ (intBits - 1)) % 2 ^ intBits - 2 ^ (intBits - 1)

/-- Go's `+` on `int`: addition that wraps around on overflow. -/
def addInt (a b : Int) : Int := wrapInt (a + b)

/-- Source `handleCount`, as a function of the sequence `xs` of the values it
receives on `countChan` until that channel is closed: `count += x` for each,
then one send of `count` on `finalCountChan` and the close of that channel.
(The progress line printed every 10000 items does not touch the channels and
is left out.) -/
def handleCount (xs : List Int) : List (ChanEvent Int) :=
  let count := xs.foldl addInt 0
  [ChanEvent.send count, ChanEvent.close]

/-- The `range finalCountChan` loop of `handleFinalCount`, started with the
current `count`: every received value overwrites `count`, the close ends the
loop.  A channel that is neither sent on nor closed blocks the loop: `none`. -/
def handleFinalCountLoop (count : Int) : List (ChanEvent Int) → Option Int
  | [] => none
  | ChanEvent.send finalCount :: rest => handleFinalCountLoop finalCount rest
  | ChanEvent.close :: _ => some count

/-- Source `handleFinalCount`: `count := 0`, the loop, `return count`. -/
def handleFinalCount (finalCountChan : List (ChanEvent Int)) : Option Int :=
  handleFinalCountLoop 0 finalCountChan

/-- The sequences in which a channel can deliver what several producers send:
`Interleaving ps xs` when `xs` takes, at each position, the next value of one
of the producers `ps` (each given by the list of the values it still has to
send), until every producer has sent everything. -/
inductive Interleaving {α : Type} : List (List α) → List α → Prop where
  | done (ps : List (List α)) : (∀ p ∈ ps, p = []) → Interleaving ps []
  | next (ps : List (List α)) (i : Nat) (x : α) (rest xs : List α) :
      ps.get? i = some (x :: rest) → Interleaving (ps.set i rest) xs →
      Interleaving ps (x :: xs)

end Orchestrator

/-! ## Processor (`src/processor/main.go`): naming of the output keys -/

namespace Processor

/-- Source `prefixFirstTwoChars`: `keySplit := strings.Split(key, "/")`, then
`fmt.Sprintf("%s/%s/%s", keySplit[0], keySplit[1][:2], keySplit[1][2:])`.
Indexing `keySplit[1]` panics when the key has no "/", and the slice
`keySplit[1][:2]` panics when the second segment has fewer than two bytes. -/
def prefixFirstTwoChars (key : GoString) : Option GoString :=
  let keySplit := stringsSplit key
  match keySplit.get? 0, keySplit.get? 1 with
  | some seg0, some seg1 =>
    if 2 ≤ seg1.length then
      some (seg0 ++ ascii "/" ++ seg1.take 2 ++ ascii "/" ++ seg1.drop 2)
    else none
  | _, _ => none

end Processor

/-! ## Processor: errors, the failure report and its JSON form -/

namespace Processor

/-- The Go `error` values of the processor, by dynamic type.  `errorString` is
what `fmt.Errorf` builds from a format without `%w` (the only way the stage
functions build an error); `messageError` is the struct of the source, whose
field `Err`, itself an `error`, is kept as the text its `Error` method gives
(the code only ever prints it), `none` for a nil `Err`. -/
inductive GoError where
  | errorString (s : GoString)
  | messageError (MessageId : GoString) (Err : Option GoString)
  deriving DecidableEq, Repr

/-- Source struct `imageData`.  `Reader` holds the bytes of the reader, `none`
for a nil reader; `Colors` is a slice, `none` when nil. -/
structure imageData where
  Key : GoString
  MessageId : GoString
  Reader : Option (List UInt8)
  Colors : Option (List GoString)
  deriving DecidableEq, Repr

/-- Source struct `itemIdentifier`. -/
structure itemIdentifier where
  ItemIdentifier : GoString
  deriving DecidableEq, Repr

/-- Source struct `batchItemFailures`.  The field is a Go slice: `none` is the
nil slice of the zero value `batchItemFailures{}`. -/
structure batchItemFailures where
  BatchItemFailures : Option (List itemIdentifier)
  deriving DecidableEq, Repr

/-- Go's `append(s, x)` on a slice that may be nil. -/
def goAppend {α : Type} (s : Option (List α)) (x : α) : Option (List α) :=
  match s with
  | none => some [x]
  | some l => some (l ++ [x])

/-- The elements of a slice (none for the nil slice). -/
def sliceElems {α : Type} (s : Option (List α)) : List α :=
  match s with
  | none => []
  | some l => l

/-- One iteration of the loop of `handleErrors` on the received `err`: the type
assertion `err.(messageError)` panics (`none`) when the dynamic type is not
`messageError`; otherwise `itemIdentifier{MessageId}` is appended.  (The line
printed for each error is left out.) -/
def handleErrorsStep (messageErrors : batchItemFailures) (err : GoError) :
    Option batchItemFailures :=
  match err with
  | GoError.messageError MessageId _ =>
    some { BatchItemFailures := goAppend messageErrors.BatchItemFailures ⟨MessageId⟩ }
  | GoError.errorString _ => none

/-- The `range errChan` loop of `handleErrors` over the values received before
the channel is closed. -/
def handleErrorsLoop (messageErrors : batchItemFailures) : List GoError → Option batchItemFailures
  | [] => some messageErrors
  | err :: rest =>
    match handleErrorsStep messageErrors err with
    | none => none
    | some messageErrors1 => handleErrorsLoop messageErrors1 rest

/-- Source `handleErrors`, as a function of the sequence received on `errChan`
before it is closed: `messageErrors := batchItemFailures{}`, the loop, the
return of `messageErrors`. -/
def handleErrors (errChan : List GoError) : Option batchItemFailures :=
  handleErrorsLoop { BatchItemFailures := none } errChan

/-- A JSON value, as `encoding/json` writes one. -/
inductive Json where
  | null
  | string (s : GoString)
  | array (elems : List Json)
  | object (fields : List (GoString × Json))

/-- The bytes of U+FFFD, the replacement character. -/
def replacementChar : GoString := [0xEF, 0xBF, 0xBD]

/-- The table `first` of package `unicode/utf8` for a leading byte of a
multi-byte sequence: the length of the sequence and the range the second byte
must lie in; `none` for a byte that cannot start a sequence. -/
def utf8First (b0 : UInt8) : Option (Nat × UInt8 × UInt8) :=
  if 0xC2 ≤ b0 ∧ b0 ≤ 0xDF then some (2, 0x80, 0xBF)
  else if b0 = 0xE0 then some (3, 0xA0, 0xBF)
  else if b0 = 0xED then some (3, 0x80, 0x9F)
  else if 0xE1 ≤ b0 ∧ b0 ≤ 0xEF then some (3, 0x80, 0xBF)
  else if b0 = 0xF0 then some (4, 0x90, 0xBF)
  else if 0xF1 ≤ b0 ∧ b0 ≤ 0xF3 then some (4, 0x80, 0xBF)
  else if b0 = 0xF4 then some (4, 0x80, 0x8F)
  else none

/-- Whether a byte is a continuation byte of UTF-8. -/
def isCont (b : UInt8) : Bool := 0x80 ≤ b && b ≤ 0xBF

/-- Go's `utf8.DecodeRuneInString`, as far as the encoder uses it: the length of
the valid encoding at the head of the string, `none` when the head is not a
valid encoding (the decoder then returns `RuneError` with size 1). -/
def utf8RuneLen (s : GoString) : Option Nat :=
  match s with
  | [] => none
  | b0 :: rest =>
    if b0 < 0x80 then some 1
    else
      match utf8First b0 with
      | none => none
      | some (size, lo, hi) =>
        match rest with
        | [] => none
        | b1 :: rest1 =>
          if ¬ (lo ≤ b1 ∧ b1 ≤ hi) then none
          else if size = 2 then some 2
          else
            match rest1 with
            | [] => none
            | b2 :: rest2 =>
              if ¬ isCont b2 then none
              else if size = 3 then some 3
              else
                match rest2 with
                | [] => none
                | b3 :: _ => if isCont b3 then some 4 else none

/-- The loop of `encoding/json` over the bytes of a string: a valid encoding is
kept, a byte that starts none is written as U+FFFD.  `fuel` bounds the number
of iterations by the length of the string. -/
def jsonStringValueLoop : Nat → GoString → GoString
  | 0, _ => []
  | _ + 1, [] => []
  | fuel + 1, b0 :: rest =>
    match utf8RuneLen (b0 :: rest) with
    | some n => (b0 :: rest).take n ++ jsonStringValueLoop fuel ((b0 :: rest).drop n)
    | none => replacementChar ++ jsonStringValueLoop fuel rest

/-- The string value that `json.Marshal` writes for a Go string: the string
itself when it is valid UTF-8, and otherwise the string with every invalid
byte replaced by U+FFFD.  (The escapes of the JSON text, such as those of the
quote and of the control characters, denote the same value and are not
modelled.) -/
def jsonStringValue (s : GoString) : GoString := jsonStringValueLoop s.length s

/-- What `json.Marshal` writes for an `itemIdentifier`: an object with the one
field named by the struct tag `json:"itemIdentifier"`. -/
def marshalItemIdentifier (i : itemIdentifier) : Json :=
  Json.object [(ascii "itemIdentifier", Json.string (jsonStringValue i.ItemIdentifier))]

/-- What `json.Marshal` writes for a `batchItemFailures`, the value
`HandleRequest` returns as a string: an object with the one field named by the
struct tag of the source, `json:"batchItemIdentifier"`, holding `null` for a
nil slice and the array of the elements otherwise. -/
def marshalBatchItemFailures (r : batchItemFailures) : Json :=
  Json.object
    [(ascii "batchItemIdentifier",
      match r.BatchItemFailures with
      | none => Json.null
      | some items => Json.array (items.map marshalItemIdentifier))]

/-- The names of the top-level fields of a JSON object. -/
def Json.fieldNames : Json → List GoString
  | Json.object fields => fields.map Prod.fst
  | _ => []

/-- Source `getImage`.  The collaborator `downloader.Download` is the parameter
`download`: it gives the bytes of the object, or fails with an error given by
its text.  On failure the result is
`fmt.Errorf("error getting image: %s: %s", key, err)`. -/
def getImage (download : GoString → GoString → Except GoString (List UInt8))
    (bucket key : GoString) : Except GoError imageData :=
  match download bucket key with
  | Except.error err =>
    Except.error (GoError.errorString (ascii "error getting image: " ++ key ++ ascii ": " ++ err))
  | Except.ok buf =>
    Except.ok { Key := key, MessageId := [], Reader := some buf, Colors := none }

end Processor

/-! ## Processor: colours -/

namespace Processor

/-- Rounding of a rational to the nearest integer, ties to the even one. -/
def roundHalfEven (x : ℚ) : ℤ :=
  let f := ⌊x⌋
  if x - f < 1 / 2 then f
  else if 1 / 2 < x - f then f + 1
  else if f % 2 = 0 then f else f + 1

/-- Rounding of a real value to `float64` (IEEE 754 binary64, round to nearest,
ties to even): the value is scaled so that its significand has 53 bits, and
the significand is rounded.  The exponent range is not modelled: every value
the program computes is 0 or lies between 2^-9 and 2^40. -/
def roundFloat64 (x : ℚ) : ℚ :=
  if x = 0 then 0
  else
    let e : ℤ := Int.log 2 |x| - 52
    (roundHalfEven (x / 2 ^ e) : ℚ) * 2 ^ e

/-- Go's conversion `float64(i)` of a `uint32` or of an integer constant. -/
def float64OfNat (i : Nat) : ℚ := roundFloat64 i

/-- Go's `*` on `float64`. -/
def mulFloat64 (a b : ℚ) : ℚ := roundFloat64 (a * b)

/-- Go's `/` on `float64`. -/
def divFloat64 (a b : ℚ) : ℚ := roundFloat64 (a / b)

/-- Go's conversion `uint32(f)` of a `float64`: the fraction is discarded
(truncation toward zero). -/
def uint32OfFloat64 (x : ℚ) : Nat := (if 0 ≤ x then ⌊x⌋ else ⌈x⌉).toNat % 2 ^ 32

/-- Source `normalize`: `uint32(float64(i) * float64(255) / float64(65535))`. -/
def normalize (i : Nat) : Nat :=
  uint32OfFloat64 (divFloat64 (mulFloat64 (float64OfNat i) (float64OfNat 255)) (float64OfNat 65535))

/-- The digit table of package `fmt` for the verb `%x`. -/
def ldigits : GoString := ascii "0123456789abcdefx"

/-- The digit loop of `fmt` for an unsigned integer in base 16: digits are
produced from the least significant one, until the rest is 0; `fuel` bounds
the number of digits. -/
def fmtHexLoop : Nat → Nat → GoString → GoString
  | 0, _, buf => buf
  | fuel + 1, u, buf =>
    if u < 16 then ldigits.getD u 0 :: buf
    else fmtHexLoop fuel (u / 16) (ldigits.getD (u % 16) 0 :: buf)

/-- The text of `fmt.Sprintf("%x", u)` for a `uint32`: lower-case hexadecimal,
no padding (a `uint32` has at most 8 hexadecimal digits). -/
def fmtHex (u : Nat) : GoString := fmtHexLoop 8 u []

/-- What `color.Color.RGBA()` returns: four `uint32`, each in 0..65535. -/
structure RGBA where
  r : Nat
  g : Nat
  b : Nat
  a : Nat
  deriving DecidableEq, Repr

/-- Source `rgbToHex`, on the result `c` of `c.RGBA()`:
`fmt.Sprintf("%x%x%x", normalize(r), normalize(g), normalize(b))`. -/
def rgbToHex (c : RGBA) : GoString :=
  fmtHex (normalize c.r) ++ fmtHex (normalize c.g) ++ fmtHex (normalize c.b)

end Processor

/-! ## Processor: the worker pool `startWorkers` -/

namespace Processor

/-- Where a worker goroutine of `startWorkers` stands in its loop
`for inValue := range inChan`. -/
inductive Worker (A B E : Type) where
  /-- At the head of the loop, about to receive from `inChan`. -/
  | receiving
  /-- Holding `inValue`, about to call `workFunc(inValue)`. -/
  | working (inValue : A)
  /-- At `errChan <- err`. -/
  | sendingErr (err : E)
  /-- At `outChan <- outValue`. -/
  | sendingOut (outValue : B)
  /-- Past the loop; the deferred `wg.Done()` has run. -/
  | exited
  deriving DecidableEq, Repr

/-- Where the goroutine that `startWorkers` starts, the one that owns the
`WaitGroup`, stands. -/
inductive Spawner where
  /-- At the test `i < numWorkers` of the loop that starts the workers. -/
  | looping (i : Nat)
  /-- At `wg.Wait()`. -/
  | waiting
  /-- At `close(outChan)`. -/
  | closing
  /-- Returned. -/
  | finished
  deriving DecidableEq, Repr

/-- The state of one call of `startWorkers` and of its three channels.
`pending` is what the senders of `inChan` have sent and no worker has received
yet, oldest first; `outChan` is the history of `outChan` and `errChan` the
values delivered on `errChan`, both oldest first. -/
structure Stage (A B E : Type) where
  pending : List A
  inClosed : Bool
  spawner : Spawner
  wg : Int
  workers : List (Worker A B E)
  outChan : List (ChanEvent B)
  outClosed : Bool
  errChan : List E
  panicked : Bool
  deriving DecidableEq, Repr

/-- The goroutines that can take a step: the owner of `inChan` (it closes the
channel, at any time; what was sent before stays receivable, as on a buffered
channel), the goroutine that starts the workers, and the `i`-th worker. -/
inductive Action where
  | closeIn
  | spawner
  | worker (i : Nat)
  deriving DecidableEq, Repr

/-- The state when `startWorkers` is called, `xs` being the sequence that goes
through `inChan`. -/
def Stage.init {A B E : Type} (xs : List A) : Stage A B E :=
  { pending := xs, inClosed := false, spawner := Spawner.looping 0, wg := 0, workers := [],
    outChan := [], outClosed := false, errChan := [], panicked := false }

/-- One step of the goroutine that starts the workers: an iteration of
`for i := 0; i < numWorkers; i++ { wg.Add(1); go ... }`, then `wg.Wait()`,
which returns only when the counter is 0, then `close(outChan)`. -/
def Stage.stepSpawner {A B E : Type} (numWorkers : Nat) (s : Stage A B E) :
    Option (Stage A B E) :=
  match s.spawner with
  | Spawner.looping i =>
    if i < numWorkers then
      some { s with wg := s.wg + 1, workers := s.workers ++ [Worker.receiving],
                    spawner := Spawner.looping (i + 1) }
    else some { s with spawner := Spawner.waiting }
  | Spawner.waiting => if s.wg = 0 then some { s with spawner := Spawner.closing } else none
  | Spawner.closing =>
    some { s with outChan := s.outChan ++ [ChanEvent.close], outClosed := true,
                  spawner := Spawner.finished }
  | Spawner.finished => none

/-- One step of the `i`-th worker.  A receive takes the oldest pending value;
with nothing pending it ends the loop when `inChan` is closed and blocks
otherwise.  The call of `workFunc` routes to `errChan` when `err != nil` and to
`outChan` otherwise.  A send on `outChan` after its close is a panic.  The
receivers of `outChan` and of `errChan` are other goroutines, taken to be ready
whenever a worker sends. -/
def Stage.stepWorker {A B E : Type} (workFunc : A → Except E B) (i : Nat) (s : Stage A B E) :
    Option (Stage A B E) :=
  match s.workers.get? i with
  | none => none
  | some Worker.receiving =>
    match s.pending with
    | inValue :: rest =>
      some { s with pending := rest, workers := s.workers.set i (Worker.working inValue) }
    | [] =>
      if s.inClosed then some { s with workers := s.workers.set i Worker.exited, wg := s.wg - 1 }
      else none
  | some (Worker.working inValue) =>
    match workFunc inValue with
    | Except.error err => some { s with workers := s.workers.set i (Worker.sendingErr err) }
    | Except.ok outValue => some { s with workers := s.workers.set i (Worker.sendingOut outValue) }
  | some (Worker.sendingErr err) =>
    some { s with errChan := s.errChan ++ [err], workers := s.workers.set i Worker.receiving }
  | some (Worker.sendingOut outValue) =>
    if s.outClosed then some { s with panicked := true }
    else
      some { s with outChan := s.outChan ++ [ChanEvent.send outValue],
                    workers := s.workers.set i Worker.receiving }
  | some Worker.exited => none

/-- One step of the system; `none` when the goroutine is blocked or has
returned, or when the program has panicked. -/
def Stage.step {A B E : Type} (numWorkers : Nat) (workFunc : A → Except E B) (a : Action)
    (s : Stage A B E) : Option (Stage A B E) :=
  if s.panicked then none
  else
    match a with
    | Action.closeIn => if s.inClosed then none else some { s with inClosed := true }
    | Action.spawner => Stage.stepSpawner numWorkers s
    | Action.worker i => Stage.stepWorker workFunc i s

/-- An execution: the steps of a schedule, one after the other. -/
def Stage.run {A B E : Type} (numWorkers : Nat) (workFunc : A → Except E B) :
    List Action → Stage A B E → Option (Stage A B E)
  | [], s => some s
  | a :: rest, s =>
    match Stage.step numWorkers workFunc a s with
    | none => none
    | some s1 => Stage.run numWorkers workFunc rest s1

/-- The values delivered on `outChan`, oldest first. -/
def Stage.outSent {A B E : Type} (s : Stage A B E) : List B :=
  s.outChan.filterMap (fun ev => match ev with
    | ChanEvent.send v => some v
    | ChanEvent.close => none)

/-- The result a worker holds: the one of the value it is working on or of the
send it is about to do. -/
def Worker.held {A B E : Type} (workFunc : A → Except E B) : Worker A B E → List (Except E B)
  | Worker.receiving => []
  | Worker.working inValue => [workFunc inValue]
  | Worker.sendingErr err => [Except.error err]
  | Worker.sendingOut outValue => [Except.ok outValue]
  | Worker.exited => []

/-- Whether a worker has left its loop. -/
def Worker.isExited {A B E : Type} : Worker A B E → Bool
  | Worker.exited => true
  | _ => false

/-- The successful result of a call of `workFunc`, if it is one. -/
def okOf {E B : Type} : Except E B → Option B
  | Except.ok b => some b
  | Except.error _ => none

/-- The error of a call of `workFunc`, if it failed. -/
def errOf {E B : Type} : Except E B → Option E
  | Except.ok _ => none
  | Except.error e => some e

/-- A schedule that runs `startWorkers` to completion on an input of `len` values:
the workers are started, worker 0 handles every value, `inChan` is closed,
every worker leaves its loop, and `outChan` is closed. -/
def Stage.schedule (numWorkers len : Nat) : List Action :=
  List.replicate (numWorkers + 1) Action.spawner
    ++ (List.replicate len [Action.worker 0, Action.worker 0, Action.worker 0]).flatten
    ++ [Action.closeIn]
    ++ (List.range numWorkers).map Action.worker
    ++ [Action.spawner, Action.spawner]

/-- The number of workers that have not left their loop. -/
def Stage.live {A B E : Type} (ws : List (Worker A B E)) : Nat :=
  ws.countP (fun w => !w.isExited)

/-- Every result of the input that the state accounts for: the results of the
values still pending, those the workers hold, and those delivered on `errChan`
and on `outChan`. -/
def Stage.accounted {A B E : Type} (workFunc : A → Except E B) (s : Stage A B E) :
    Multiset (Except E B) :=
  (↑(s.pending.map workFunc) : Multiset (Except E B))
    + ↑(s.workers.flatMap (Worker.held workFunc))
    + ↑(s.errChan.map (fun e => (Except.error e : Except E B)))
    + ↑(s.outSent.map (fun b => (Except.ok b : Except E B)))

/-- The invariant of the executions of `startWorkers` on the input `xs`. -/
structure Stage.Inv {A B E : Type} (numWorkers : Nat) (workFunc : A → Except E B)
    (xs : List A) (s : Stage A B E) : Prop where
  notPanicked : s.panicked = false
  accounted : Stage.accounted workFunc s = ↑(xs.map workFunc)
  wgLive : s.wg = (Stage.live s.workers : Int)
  spawned : s.workers.length
      = (match s.spawner with
         | Spawner.looping i => i
         | _ => numWorkers)
  loopBound : ∀ i, s.spawner = Spawner.looping i → i ≤ numWorkers
  allExited : s.spawner = Spawner.closing ∨ s.spawner = Spawner.finished →
      Stage.live s.workers = 0
  closedIff : s.outClosed = true ↔ s.spawner = Spawner.finished
  outShape : s.outChan
      = s.outSent.map ChanEvent.send ++ (if s.outClosed then [ChanEvent.close] else [])
  drained : (∃ w ∈ s.workers, w = Worker.exited) → s.inClosed = true ∧ s.pending = []

end Processor

/-! ## Processor: `HandleRequest` -/

namespace Processor

/-- Where the goroutine that runs `HandleRequest` stands, once the
configuration checks have passed, the session is open and the five calls of
`startWorkers` have returned their channels. -/
inductive MainPc where
  /-- In `for _, record := range sqsEvent.Records { keyChan <- record.Body }`,
  about to send the body of record `i`. -/
  | feeding (i : Nat)
  /-- At `close(keyChan)`. -/
  | closingKeys
  /-- In `for range postImageMetaDataChan {}`. -/
  | draining
  /-- At `close(errChan)`. -/
  | closingErr
  /-- At `finalErrResults := <-errResultChan`. -/
  | awaitingReport
  /-- Past `json.Marshal(finalErrResults)`: the call has returned the
  serialisation of `finalErrResults`. -/
  | returned (finalErrResults : batchItemFailures)
  deriving DecidableEq, Repr

/-- Where the goroutine started by `go handleErrors(errChan)` stands. -/
inductive AggPc where
  /-- In `for err := range errChan`, with the report built so far. -/
  | ranging (messageErrors : batchItemFailures)
  /-- Past `return messageErrors`.  The `go` statement discards the value a
  function returns. -/
  | returned (messageErrors : batchItemFailures)
  /-- Stopped by the panic of the type assertion `err.(messageError)`. -/
  | panicked
  deriving DecidableEq, Repr

/-- The state of a run of `HandleRequest`.  `keyChan` is the content of the
buffered channel of that name; `errResultChan` holds the values of the sends
that are waiting on the channel of that name. -/
structure Handler where
  records : List GoString
  main : MainPc
  agg : AggPc
  keyChan : List GoString
  keyClosed : Bool
  finalClosed : Bool
  errClosed : Bool
  errResultChan : List batchItemFailures
  errResultClosed : Bool
  crashed : Bool
  deriving DecidableEq, Repr

/-- The steps of a run of `HandleRequest`: those of the main goroutine and of
the goroutine of `handleErrors`, and what the workers of the five stages do to
the channels these two goroutines use: a worker of the first stage receives a
key, a worker of any stage sends an error on `errChan`, a worker of the last
stage sends a value on `postImageMetaDataChan`, the last stage closes that
channel. -/
inductive HandlerAction where
  | main
  | aggregator
  | stageKey
  | stageErr (err : GoError)
  | stageOut (image : imageData)
  | stageClose
  deriving DecidableEq, Repr

/-- The state after the five calls of `startWorkers`, for an event whose
records have the bodies `records`.  The three channels have just been made:
nothing is waiting on `errResultChan`. -/
def Handler.init (records : List GoString) : Handler :=
  { records := records, main := MainPc.feeding 0,
    agg := AggPc.ranging { BatchItemFailures := none },
    keyChan := [], keyClosed := false, finalClosed := false, errClosed := false,
    errResultChan := [], errResultClosed := false, crashed := false }

/-- One step of the main goroutine.  `keyChan` has room for every record, so
the sends on it never block; the loop over `postImageMetaDataChan` ends when
that channel is closed; the receive from `errResultChan` takes the value of a
waiting send, or the zero value when the channel is closed, and blocks
otherwise. -/
def Handler.stepMain (s : Handler) : Option Handler :=
  match s.main with
  | MainPc.feeding i =>
    match s.records.get? i with
    | some body => some { s with keyChan := s.keyChan ++ [body], main := MainPc.feeding (i + 1) }
    | none => some { s with main := MainPc.closingKeys }
  | MainPc.closingKeys => some { s with keyClosed := true, main := MainPc.draining }
  | MainPc.draining => if s.finalClosed then some { s with main := MainPc.closingErr } else none
  | MainPc.closingErr => some { s with errClosed := true, main := MainPc.awaitingReport }
  | MainPc.awaitingReport =>
    match s.errResultChan with
    | finalErrResults :: rest =>
      some { s with errResultChan := rest, main := MainPc.returned finalErrResults }
    | [] =>
      if s.errResultClosed then some { s with main := MainPc.returned { BatchItemFailures := none } }
      else none
  | MainPc.returned _ => none

/-- One step of the goroutine of `handleErrors` on its own: the loop ends when
`errChan` is closed, and the function returns. -/
def Handler.stepAggregator (s : Handler) : Option Handler :=
  match s.agg with
  | AggPc.ranging messageErrors =>
    if s.errClosed then some { s with agg := AggPc.returned messageErrors } else none
  | _ => none

/-- A worker sends `err` on the unbuffered `errChan`: on a closed channel the
send panics; otherwise it needs the goroutine of `handleErrors` in its loop,
which receives `err` and runs the body of the loop on it. -/
def Handler.stepStageErr (err : GoError) (s : Handler) : Option Handler :=
  if s.errClosed then some { s with crashed := true }
  else
    match s.agg with
    | AggPc.ranging messageErrors =>
      match handleErrorsStep messageErrors err with
      | some messageErrors1 => some { s with agg := AggPc.ranging messageErrors1 }
      | none => some { s with agg := AggPc.panicked, crashed := true }
    | _ => none

/-- One step of a run of `HandleRequest`; `none` when the step is not
enabled.  A panic ends the program. -/
def Handler.step (a : HandlerAction) (s : Handler) : Option Handler :=
  if s.crashed then none
  else
    match a with
    | HandlerAction.main => Handler.stepMain s
    | HandlerAction.aggregator => Handler.stepAggregator s
    | HandlerAction.stageKey =>
      match s.keyChan with
      | _ :: rest => some { s with keyChan := rest }
      | [] => none
    | HandlerAction.stageErr err => Handler.stepStageErr err s
    | HandlerAction.stageOut _ =>
      if s.finalClosed then some { s with crashed := true }
      else if s.main = MainPc.draining then some s
      else none
    | HandlerAction.stageClose =>
      if s.finalClosed then some { s with crashed := true }
      else some { s with finalClosed := true }

/-- An execution of `HandleRequest`: the steps of a schedule, one after the
other. -/
def Handler.run : List HandlerAction → Handler → Option Handler
  | [], s => some s
  | a :: rest, s =>
    match Handler.step a s with
    | none => none
    | some s1 => Handler.run rest s1

end Processor

-- ## Theorems

/-! ## Properties of the orchestrator -/

namespace Orchestrator

theorem foldl_snoc {α β : Type} (g : α → β) (l : List α) (init : List β) :
    l.foldl (fun acc x => acc ++ [g x]) init = init ++ l.map g := by
  induction l generalizing init with
  | nil => simp
  | cons a l ih => simp [ih]

theorem foldl_foldl_snoc {α β : Type} (g : α → α → β) (l m : List α) (init : List β) :
    l.foldl (fun acc x => m.foldl (fun acc y => acc ++ [g x y]) acc) init
      = init ++ l.flatMap (fun x => m.map (g x)) := by
  induction l generalizing init with
  | nil => simp
  | cons a l ih => rw [List.foldl_cons, ih, foldl_snoc]; simp

end Orchestrator

namespace Orchestrator

set_option maxRecDepth 100000 in
theorem charset_pairs :
    charset.flatMap (fun x => charset.map (fun y => [x, y]))
      = (List.range 256).map (fun i => [hexChar (i / 16), hexChar (i % 16)]) := by
  decide

theorem makePrefixList_eq_map (pfx : GoString) :
    makePrefixListTwoHexChars pfx
      = (List.range 256).map
          (fun i => pfx ++ ascii "/" ++ [hexChar (i / 16), hexChar (i % 16)]) := by
  have h : makePrefixListTwoHexChars pfx
      = (charset.flatMap (fun x => charset.map (fun y => [x, y]))).map
          (fun p => pfx ++ ascii "/" ++ p) := by
    unfold makePrefixListTwoHexChars
    rw [foldl_foldl_snoc (fun x y => pfx ++ ascii "/" ++ [x] ++ [y])]
    simp [List.map_flatMap, List.append_assoc, Function.comp_def]
  rw [h, charset_pairs, List.map_map]
  rfl

theorem hexChar_strictMono : ∀ i j : Fin 16, i < j → hexChar i < hexChar j := by decide

theorem hexPair_lex {i j : Nat} (hij : i < j) (hj : j < 256) :
    List.Lex (· < ·) [hexChar (i / 16), hexChar (i % 16)] [hexChar (j / 16), hexChar (j % 16)] := by
  by_cases hq : i / 16 = j / 16
  · rw [hq]
    refine List.Lex.cons (List.Lex.rel ?_)
    have h1 : i % 16 < j % 16 := by omega
    exact hexChar_strictMono ⟨i % 16, by omega⟩ ⟨j % 16, by omega⟩ h1
  · refine List.Lex.rel ?_
    have h1 : i / 16 < j / 16 := by omega
    exact hexChar_strictMono ⟨i / 16, by omega⟩ ⟨j / 16, by omega⟩ h1

theorem lex_irrefl_bytes (a : GoString) : ¬ List.Lex (· < ·) a a := by
  induction a with
  | nil => intro h; cases h
  | cons x xs ih =>
    intro h
    cases h with
    | cons h => exact ih h
    | rel h => exact UInt8.lt_irrefl _ h

/-- C7: for every prefix the shard list has 256 pairwise distinct elements, the
i-th being prefix + "/" + h(i/16) + h(i%16); it is strictly increasing in
bytewise lexicographic order, starts at prefix/00, ends at prefix/ff and holds
prefix/xy for every pair x, y of characters of "0123456789abcdef". -/
theorem makePrefixListTwoHexChars_spec (pfx : GoString) :
    (makePrefixListTwoHexChars pfx).length = 256
    ∧ (256 = 16 ^ 2)
    ∧ (makePrefixListTwoHexChars pfx).Nodup
    ∧ (∀ i, i < 256 → (makePrefixListTwoHexChars pfx).get? i
          = some (pfx ++ ascii "/" ++ [hexChar (i / 16), hexChar (i % 16)]))
    ∧ (makePrefixListTwoHexChars pfx).Pairwise (List.Lex (· < ·))
    ∧ (makePrefixListTwoHexChars pfx).head? = some (pfx ++ ascii "/00")
    ∧ (makePrefixListTwoHexChars pfx).getLast? = some (pfx ++ ascii "/ff")
    ∧ (∀ x ∈ charset, ∀ y ∈ charset,
          pfx ++ ascii "/" ++ [x, y] ∈ makePrefixListTwoHexChars pfx)
    ∧ (∀ s ∈ makePrefixListTwoHexChars pfx, ∃ x ∈ charset, ∃ y ∈ charset,
          s = pfx ++ ascii "/" ++ [x, y]) := by
  have hsorted : (makePrefixListTwoHexChars pfx).Pairwise (List.Lex (· < ·)) := by
    rw [makePrefixList_eq_map, List.pairwise_map]
    have hr : (List.range 256).Pairwise (fun a b => a < b ∧ b < 256) := by
      have h1 := List.pairwise_lt_range 256
      have h2 : (List.range 256).Pairwise (fun _ b => b < 256) :=
        List.pairwise_of_forall_mem_list (fun _ _ b hb => List.mem_range.mp hb)
      exact h1.and h2
    refine hr.imp ?_
    intro a b hab
    exact List.Lex.append_left _ (hexPair_lex hab.1 hab.2) _
  have hmem : ∀ x ∈ charset, ∃ i, i < 16 ∧ hexChar i = x := by decide
  refine ⟨?_, by norm_num, ?_, ?_, hsorted, ?_, ?_, ?_, ?_⟩
  · rw [makePrefixList_eq_map]; simp
  · refine hsorted.imp ?_
    intro a b hab heq
    subst heq
    exact lex_irrefl_bytes a hab
  · intro i hi
    rw [makePrefixList_eq_map, List.get?_eq_getElem?, List.getElem?_map,
      List.getElem?_range hi]
    rfl
  · rw [makePrefixList_eq_map, List.range_succ_eq_map 255]
    simp only [List.map_cons, List.head?_cons]
    have h2 : [hexChar (0 / 16), hexChar (0 % 16)] = ascii "00" := by decide
    have h3 : ascii "/00" = ascii "/" ++ ascii "00" := by decide
    rw [h2, h3, List.append_assoc]
  · rw [makePrefixList_eq_map, List.range_succ, List.map_append]
    simp only [List.map_cons, List.map_nil, List.getLast?_append, List.getLast?_singleton]
    have h2 : [hexChar (255 / 16), hexChar (255 % 16)] = ascii "ff" := by decide
    have h3 : ascii "/ff" = ascii "/" ++ ascii "ff" := by decide
    rw [h2, h3, List.append_assoc]
    rfl
  · intro x hx y hy
    obtain ⟨i, hi, rfl⟩ := hmem x hx
    obtain ⟨j, hj, rfl⟩ := hmem y hy
    rw [makePrefixList_eq_map, List.mem_map]
    refine ⟨16 * i + j, List.mem_range.mpr (by omega), ?_⟩
    have h1 : (16 * i + j) / 16 = i := by omega
    have h2 : (16 * i + j) % 16 = j := by omega
    rw [h1, h2]
  · intro s hs
    rw [makePrefixList_eq_map, List.mem_map] at hs
    obtain ⟨i, hi, rfl⟩ := hs
    have hi256 := List.mem_range.mp hi
    have hc : ∀ k : Fin 16, hexChar k ∈ charset := by decide
    exact ⟨_, hc ⟨i / 16, by omega⟩, _, hc ⟨i % 16, by omega⟩, rfl⟩

end Orchestrator

namespace Orchestrator

theorem wrapInt_eq (z : Int) :
    wrapInt z = (z + 9223372036854775808) % 18446744073709551616 - 9223372036854775808 := by
  simp [wrapInt, intBits]

theorem wrapInt_of_inRange {z : Int} (h1 : minInt ≤ z) (h2 : z ≤ maxInt) : wrapInt z = z := by
  rw [wrapInt_eq]
  simp only [minInt, maxInt, intBits] at h1 h2
  norm_num at h1 h2
  omega

theorem wrapInt_add_wrapInt (a b : Int) : wrapInt (wrapInt a + b) = wrapInt (a + b) := by
  simp only [wrapInt_eq]
  omega

theorem foldl_addInt (xs : List Int) (acc : Int) :
    xs.foldl addInt (wrapInt acc) = wrapInt (acc + xs.sum) := by
  induction xs generalizing acc with
  | nil => simp
  | cons x xs ih =>
    rw [List.foldl_cons, addInt, wrapInt_add_wrapInt, ih, List.sum_cons, add_assoc]

theorem handleCount_count (xs : List Int) : xs.foldl addInt 0 = wrapInt xs.sum := by
  have h := foldl_addInt xs 0
  have h0 : wrapInt 0 = 0 := by rw [wrapInt_eq]; norm_num
  rw [h0, zero_add] at h
  exact h

theorem sum_set_producer (ps : List (List Int)) (i : Nat) (x : Int) (rest : List Int)
    (h : ps.get? i = some (x :: rest)) :
    ((ps.set i rest).map List.sum).sum + x = (ps.map List.sum).sum := by
  induction ps generalizing i with
  | nil => simp at h
  | cons p ps ih =>
    cases i with
    | zero =>
      simp at h
      subst h
      simp
      ring
    | succ i =>
      simp at h
      have := ih i (by simpa using h)
      simp only [List.set_cons_succ, List.map_cons, List.sum_cons]
      linarith

theorem interleaving_sum {ps : List (List Int)} {xs : List Int} (h : Interleaving ps xs) :
    xs.sum = (ps.map List.sum).sum := by
  induction h with
  | done ps hall =>
    have : ps.map List.sum = ps.map (fun _ => (0 : Int)) := by
      apply List.map_congr_left
      intro p hp
      rw [hall p hp]
      rfl
    rw [this]
    simp
  | next ps i x rest xs hget _ ih =>
    rw [List.sum_cons, ih, ← sum_set_producer ps i x rest hget]
    ring

end Orchestrator

namespace Orchestrator

/-- C8 (as stated) fails on overflow: for the two in-range values `maxInt` and
1 the code's total wraps around to `minInt`, which is not their sum. -/
theorem handleCount_overflow_counterexample :
    (minInt ≤ 9223372036854775807 ∧ (9223372036854775807 : Int) ≤ maxInt)
    ∧ handleCount [9223372036854775807, 1]
        = [ChanEvent.send (-9223372036854775808), ChanEvent.close]
    ∧ handleFinalCount (handleCount [9223372036854775807, 1]) = some (-9223372036854775808)
    ∧ List.sum [(9223372036854775807 : Int), 1] = 9223372036854775808
    ∧ handleFinalCount (handleCount [9223372036854775807, 1])
        ≠ some (List.sum [(9223372036854775807 : Int), 1]) := by
  decide

/-- C8 (amended): for every sequence `xs` received on `countChan`, `handleCount`
sends exactly one value and then closes `finalCountChan`; the value is the sum
of `xs` reduced to the 64-bit range of `int`, and `handleFinalCount` returns
it.  It is the sum itself whenever the sum fits in an `int`; in particular any
interleaving of N producers sending M times the value 1 gives N*M, as long as
N*M is at most `maxInt`. -/
theorem handleCount_handleFinalCount_sum (xs : List Int) :
    handleCount xs = [ChanEvent.send (wrapInt xs.sum), ChanEvent.close]
    ∧ handleFinalCount (handleCount xs) = some (wrapInt xs.sum)
    ∧ (minInt ≤ xs.sum → xs.sum ≤ maxInt → handleFinalCount (handleCount xs) = some xs.sum)
    ∧ (∀ N M : Nat, Interleaving (List.replicate N (List.replicate M (1 : Int))) xs →
        ((N * M : Nat) : Int) ≤ maxInt →
        handleFinalCount (handleCount xs) = some ((N * M : Nat) : Int)) := by
  have h1 : handleCount xs = [ChanEvent.send (wrapInt xs.sum), ChanEvent.close] := by
    simp [handleCount, handleCount_count]
  have h2 : handleFinalCount (handleCount xs) = some (wrapInt xs.sum) := by
    rw [h1]; rfl
  refine ⟨h1, h2, ?_, ?_⟩
  · intro hlo hhi
    rw [h2, wrapInt_of_inRange hlo hhi]
  · intro N M hint hNM
    have hsum : xs.sum = ((N * M : Nat) : Int) := by
      rw [interleaving_sum hint]
      simp
    have hlo : minInt ≤ xs.sum := by
      rw [hsum]
      have : minInt ≤ 0 := by decide
      exact le_trans this (Int.ofNat_nonneg _)
    rw [h2, wrapInt_of_inRange hlo (hsum ▸ hNM), hsum]

/-- An instance of C8: two producers, two unit signals each, one interleaving. -/
theorem handleCount_handleFinalCount_sum_witness :
    Interleaving (List.replicate 2 (List.replicate 2 (1 : Int))) [1, 1, 1, 1]
    ∧ handleFinalCount (handleCount [1, 1, 1, 1]) = some ((2 * 2 : Nat) : Int) := by
  have hint : Interleaving (List.replicate 2 (List.replicate 2 (1 : Int))) [1, 1, 1, 1] := by
    refine Interleaving.next _ 0 1 [1] _ rfl ?_
    refine Interleaving.next _ 1 1 [1] _ rfl ?_
    refine Interleaving.next _ 1 1 [] _ rfl ?_
    refine Interleaving.next _ 0 1 [] _ rfl ?_
    exact Interleaving.done _ (by decide)
  exact ⟨hint, (handleCount_handleFinalCount_sum [1, 1, 1, 1]).2.2.2 2 2 hint (by decide)⟩

end Orchestrator

/-! ## Properties of `strings.Split` and of the output-key naming -/

theorem stringsSplit_cons (c : UInt8) (cs : GoString) :
    stringsSplit (c :: cs)
      = if c = slash then [] :: stringsSplit cs
        else
          match stringsSplit cs with
          | [] => [[c]]
          | s :: ss => (c :: s) :: ss := by
  rw [stringsSplit]

theorem stringsSplit_ne_nil (key : GoString) : stringsSplit key ≠ [] := by
  cases key with
  | nil => simp [stringsSplit]
  | cons c cs =>
    unfold stringsSplit
    split
    · simp
    · split <;> simp

theorem stringsJoin_cons_cons (c : UInt8) (s : GoString) (ss : List GoString) :
    stringsJoin ((c :: s) :: ss) = c :: stringsJoin (s :: ss) := by
  cases ss with
  | nil => rfl
  | cons t ts => rfl

theorem stringsJoin_stringsSplit (key : GoString) : stringsJoin (stringsSplit key) = key := by
  induction key with
  | nil => rfl
  | cons c cs ih =>
    unfold stringsSplit
    split
    · rename_i hc
      cases hsp : stringsSplit cs with
      | nil => exact absurd hsp (stringsSplit_ne_nil cs)
      | cons t ts =>
        rw [hsp] at ih
        show [] ++ slash :: stringsJoin (t :: ts) = c :: cs
        rw [ih, hc]
        rfl
    · cases hsp : stringsSplit cs with
      | nil => exact absurd hsp (stringsSplit_ne_nil cs)
      | cons t ts =>
        rw [hsp] at ih
        show stringsJoin ((c :: t) :: ts) = c :: cs
        rw [stringsJoin_cons_cons, ih]

theorem stringsSplit_noSlash (key : GoString) : ∀ s ∈ stringsSplit key, slash ∉ s := by
  induction key with
  | nil => simp [stringsSplit]
  | cons c cs ih =>
    unfold stringsSplit
    split
    · intro s hs
      rcases List.mem_cons.mp hs with h | h
      · subst h; simp
      · exact ih s h
    · rename_i hc
      cases hsp : stringsSplit cs with
      | nil => exact absurd hsp (stringsSplit_ne_nil cs)
      | cons t ts =>
        rw [hsp] at ih
        intro s hs
        rcases List.mem_cons.mp hs with h | h
        · subst h
          intro hmem
          rcases List.mem_cons.mp hmem with h1 | h1
          · exact hc h1.symm
          · exact ih t (List.mem_cons_self _ _) h1
        · exact ih s (List.mem_cons_of_mem _ h)

theorem stringsSplit_of_noSlash (s : GoString) (h : slash ∉ s) : stringsSplit s = [s] := by
  induction s with
  | nil => rfl
  | cons c cs ih =>
    have hc : c ≠ slash := fun e => h (e ▸ List.mem_cons_self _ _)
    have hcs : slash ∉ cs := fun e => h (List.mem_cons_of_mem _ e)
    unfold stringsSplit
    rw [if_neg hc, ih hcs]

theorem stringsSplit_append_slash (s t : GoString) (h : slash ∉ s) :
    stringsSplit (s ++ slash :: t) = s :: stringsSplit t := by
  induction s with
  | nil =>
    show stringsSplit (slash :: t) = [] :: stringsSplit t
    rw [stringsSplit_cons, if_pos rfl]
  | cons c cs ih =>
    have hc : c ≠ slash := fun e => h (e ▸ List.mem_cons_self _ _)
    have hcs : slash ∉ cs := fun e => h (List.mem_cons_of_mem _ e)
    show stringsSplit (c :: (cs ++ slash :: t)) = (c :: cs) :: stringsSplit t
    rw [stringsSplit_cons, if_neg hc, ih hcs]

theorem count_slash_of_noSlash (s : GoString) (h : slash ∉ s) : s.count slash = 0 :=
  List.count_eq_zero.mpr h

namespace Processor

theorem ascii_slash : ascii "/" = [slash] := by decide

/-- The result of `prefixFirstTwoChars` on a key of two or more segments whose
second segment has at least two bytes: it is built from the first two
segments alone. -/
theorem prefixFirstTwoChars_of_split (key seg0 seg1 : GoString) (rest : List GoString)
    (hsplit : stringsSplit key = seg0 :: seg1 :: rest) (hlen : 2 ≤ seg1.length) :
    ∃ r, prefixFirstTwoChars key = some r
      ∧ r = seg0 ++ ascii "/" ++ seg1.take 2 ++ ascii "/" ++ seg1.drop 2
      ∧ stringsSplit r = [seg0, seg1.take 2, seg1.drop 2]
      ∧ r.get? (seg0.length + 3) = some slash
      ∧ r.eraseIdx (seg0.length + 3) = seg0 ++ ascii "/" ++ seg1
      ∧ r.count slash = 2 := by
  have hs0 : slash ∉ seg0 := stringsSplit_noSlash key seg0 (by rw [hsplit]; simp)
  have hs1 : slash ∉ seg1 := stringsSplit_noSlash key seg1 (by rw [hsplit]; simp)
  have ht : slash ∉ seg1.take 2 := fun h => hs1 (List.mem_of_mem_take h)
  have hd : slash ∉ seg1.drop 2 := fun h => hs1 (List.mem_of_mem_drop h)
  have htl : (seg1.take 2).length = 2 := by rw [List.length_take]; omega
  have hl : (seg0 ++ [slash] ++ seg1.take 2).length = seg0.length + 3 := by
    simp [htl]
  have hget : (seg0 ++ ascii "/" ++ seg1.take 2 ++ ascii "/" ++ seg1.drop 2).get?
      (seg0.length + 3) = some slash := by
    rw [ascii_slash, List.append_assoc (seg0 ++ [slash] ++ seg1.take 2), ← hl,
      List.get?_eq_getElem?, List.getElem?_append_right (le_refl _)]
    simp
  have herase : (seg0 ++ ascii "/" ++ seg1.take 2 ++ ascii "/" ++ seg1.drop 2).eraseIdx
      (seg0.length + 3) = seg0 ++ ascii "/" ++ seg1 := by
    rw [ascii_slash, List.append_assoc (seg0 ++ [slash] ++ seg1.take 2), ← hl,
      List.eraseIdx_append_of_length_le (le_refl _)]
    simp
  have hcount : (seg0 ++ ascii "/" ++ seg1.take 2 ++ ascii "/" ++ seg1.drop 2).count slash
      = 2 := by
    rw [ascii_slash]
    simp only [List.count_append, count_slash_of_noSlash _ hs0, count_slash_of_noSlash _ ht,
      count_slash_of_noSlash _ hd]
    decide
  refine ⟨seg0 ++ ascii "/" ++ seg1.take 2 ++ ascii "/" ++ seg1.drop 2, ?_, rfl, ?_, hget,
    herase, hcount⟩
  · unfold prefixFirstTwoChars
    simp only [hsplit]
    simp [hlen]
  · rw [ascii_slash]
    have e : seg0 ++ [slash] ++ seg1.take 2 ++ [slash] ++ seg1.drop 2
        = seg0 ++ slash :: (seg1.take 2 ++ slash :: seg1.drop 2) := by simp
    rw [e, stringsSplit_append_slash _ _ hs0, stringsSplit_append_slash _ _ ht,
      stringsSplit_of_noSlash _ hd]

/-- What the code does on the keys it is written for: on a key of exactly two
segments whose second segment has at least two bytes, `prefixFirstTwoChars`
keeps the first segment, inserts exactly one path level, the first two bytes
of the second segment, and drops nothing: the result has exactly one more "/"
than the key, and deleting the inserted "/" gives back the key. -/
theorem prefixFirstTwoChars_two_segments (key seg0 seg1 : GoString)
    (hsplit : stringsSplit key = [seg0, seg1]) (hlen : 2 ≤ seg1.length) :
    ∃ r, prefixFirstTwoChars key = some r
      ∧ stringsSplit r = [seg0, seg1.take 2, seg1.drop 2]
      ∧ r.count slash = key.count slash + 1
      ∧ r.get? (seg0.length + 3) = some slash
      ∧ r.eraseIdx (seg0.length + 3) = key := by
  obtain ⟨r, hr, _, hsegs, hget, herase, hcount⟩ :=
    prefixFirstTwoChars_of_split key seg0 seg1 [] hsplit hlen
  have hs0 : slash ∉ seg0 := stringsSplit_noSlash key seg0 (by rw [hsplit]; simp)
  have hs1 : slash ∉ seg1 := stringsSplit_noSlash key seg1 (by rw [hsplit]; simp)
  have hkey : key = seg0 ++ ascii "/" ++ seg1 := by
    have hj := stringsJoin_stringsSplit key
    rw [hsplit] at hj
    rw [← hj, ascii_slash]
    simp [stringsJoin]
  refine ⟨r, hr, hsegs, ?_, hget, by rw [herase, hkey]⟩
  rw [hcount, hkey, ascii_slash]
  simp only [List.count_append, count_slash_of_noSlash _ hs0, count_slash_of_noSlash _ hs1]
  decide

/-- The two-segment key "images/abcdef.jpg", whose output key is
"images/ab/cdef.jpg". -/
theorem prefixFirstTwoChars_two_segments_example :
    stringsSplit (ascii "images/abcdef.jpg") = [ascii "images", ascii "abcdef.jpg"]
    ∧ 2 ≤ (ascii "abcdef.jpg").length
    ∧ prefixFirstTwoChars (ascii "images/abcdef.jpg") = some (ascii "images/ab/cdef.jpg")
    ∧ ∃ r, prefixFirstTwoChars (ascii "images/abcdef.jpg") = some r
      ∧ stringsSplit r = [ascii "images", (ascii "abcdef.jpg").take 2,
              (ascii "abcdef.jpg").drop 2]
      ∧ r.count slash = (ascii "images/abcdef.jpg").count slash + 1
      ∧ r.get? ((ascii "images").length + 3) = some slash
      ∧ r.eraseIdx ((ascii "images").length + 3) = ascii "images/abcdef.jpg" :=
  ⟨by decide, by decide, by decide,
   prefixFirstTwoChars_two_segments (ascii "images/abcdef.jpg") (ascii "images") (ascii "abcdef.jpg")
    (by decide) (by decide)⟩

theorem stringsSplit_length (key : GoString) :
    (stringsSplit key).length = key.count slash + 1 := by
  induction key with
  | nil => rfl
  | cons c cs ih =>
    rw [stringsSplit_cons]
    split
    · rename_i hc
      rw [List.length_cons, ih, hc, List.count_cons_self]
    · rename_i hc
      have hcount : (c :: cs).count slash = cs.count slash :=
        List.count_cons_of_ne (fun e => hc e.symm) cs
      cases hsp : stringsSplit cs with
      | nil => exact absurd hsp (stringsSplit_ne_nil cs)
      | cons t ts =>
        rw [hsp] at ih
        rw [hcount, ← ih]
        rfl

/-- C9 fails on the code.  On every key of three or more segments whose second
segment has at least two bytes, the result is built from the first two
segments alone: the third and later segments are dropped, the result has no
more "/" than the key (not one more), and deleting the inserted "/" does not
give the key back.  For the key "a/bcd/e" the result is "a/bc/d". -/
theorem prefixFirstTwoChars_drops_third_segment :
    (∀ key seg0 seg1 seg2 rest, stringsSplit key = seg0 :: seg1 :: seg2 :: rest →
        2 ≤ seg1.length →
        ∃ r, prefixFirstTwoChars key = some r
          ∧ r = seg0 ++ ascii "/" ++ seg1.take 2 ++ ascii "/" ++ seg1.drop 2
          ∧ stringsSplit r = [seg0, seg1.take 2, seg1.drop 2]
          ∧ r.count slash ≤ key.count slash
          ∧ r.eraseIdx (seg0.length + 3) ≠ key)
    ∧ stringsSplit (ascii "a/bcd/e") = [ascii "a", ascii "bcd", ascii "e"]
    ∧ 3 ≤ (stringsSplit (ascii "a/bcd/e")).length
    ∧ 2 ≤ (ascii "bcd").length
    ∧ prefixFirstTwoChars (ascii "a/bcd/e") = some (ascii "a/bc/d")
    ∧ (ascii "a/bc/d").count slash = (ascii "a/bcd/e").count slash
    ∧ (ascii "a/bc/d").eraseIdx 4 = ascii "a/bcd"
    ∧ (ascii "a/bc/d").eraseIdx 4 ≠ ascii "a/bcd/e" := by
  refine ⟨?_, by decide⟩
  intro key seg0 seg1 seg2 rest hsplit hlen
  obtain ⟨r, hr, hform, hsegs, _, herase, hcount⟩ :=
    prefixFirstTwoChars_of_split key seg0 seg1 (seg2 :: rest) hsplit hlen
  have hlenkey := stringsSplit_length key
  rw [hsplit] at hlenkey
  simp only [List.length_cons] at hlenkey
  have hs0 : slash ∉ seg0 := stringsSplit_noSlash key seg0 (by rw [hsplit]; simp)
  have hs1 : slash ∉ seg1 := stringsSplit_noSlash key seg1 (by rw [hsplit]; simp)
  refine ⟨r, hr, hform, hsegs, by omega, ?_⟩
  intro heq
  have h1 : (r.eraseIdx (seg0.length + 3)).count slash = 1 := by
    rw [herase, ascii_slash]
    simp only [List.count_append, count_slash_of_noSlash _ hs0, count_slash_of_noSlash _ hs1]
    decide
  rw [heq] at h1
  omega

end Processor

/-! ## Properties of the error aggregator and of the report -/

namespace Processor

theorem sliceElems_goAppend {α : Type} (s : Option (List α)) (x : α) :
    sliceElems (goAppend s x) = sliceElems s ++ [x] := by
  cases s <;> rfl

theorem handleErrorsLoop_messageErrors (es : List (GoString × Option GoString))
    (acc : batchItemFailures) :
    ∃ report, handleErrorsLoop acc (es.map (fun e => GoError.messageError e.1 e.2)) = some report
      ∧ sliceElems report.BatchItemFailures
          = sliceElems acc.BatchItemFailures ++ es.map (fun e => itemIdentifier.mk e.1)
      ∧ (es = [] → report = acc) := by
  induction es generalizing acc with
  | nil => exact ⟨acc, rfl, by simp, fun _ => rfl⟩
  | cons e es ih =>
    obtain ⟨report, hrun, helems, _⟩ :=
      ih { BatchItemFailures := goAppend acc.BatchItemFailures ⟨e.1⟩ }
    refine ⟨report, ?_, ?_, by simp⟩
    · simpa [handleErrorsLoop, handleErrorsStep] using hrun
    · rw [helems, sliceElems_goAppend]
      simp

/-- C3: on a sequence of k `messageError` values received before the error
stream is closed, `handleErrors` returns a report whose list has exactly k
entries, the i-th being `itemIdentifier{e_i.MessageId}`, in receive order; for
the empty sequence the report is the empty `batchItemFailures{}`. -/
theorem handleErrors_report (es : List (GoString × Option GoString)) :
    ∃ report, handleErrors (es.map (fun e => GoError.messageError e.1 e.2)) = some report
      ∧ sliceElems report.BatchItemFailures = es.map (fun e => itemIdentifier.mk e.1)
      ∧ (sliceElems report.BatchItemFailures).length = es.length
      ∧ (∀ i (h : i < es.length), (sliceElems report.BatchItemFailures).get? i
            = some (itemIdentifier.mk (es.get ⟨i, h⟩).1))
      ∧ (es = [] → report = { BatchItemFailures := none }) := by
  obtain ⟨report, hrun, helems, hnil⟩ :=
    handleErrorsLoop_messageErrors es { BatchItemFailures := none }
  have helems2 : sliceElems report.BatchItemFailures
      = es.map (fun e => itemIdentifier.mk e.1) := by
    rw [helems]; rfl
  refine ⟨report, hrun, helems2, by rw [helems2, List.length_map], ?_, hnil⟩
  intro i h
  rw [helems2, List.get?_eq_getElem?, List.getElem?_map, List.getElem?_eq_getElem h]
  rfl

/-- An instance of C3: two failure records, for the messages "m1" and "m2". -/
theorem handleErrors_report_example :
    handleErrors [GoError.messageError (ascii "m1") (some (ascii "boom")),
        GoError.messageError (ascii "m2") none]
      = some { BatchItemFailures := some [⟨ascii "m1"⟩, ⟨ascii "m2"⟩] } := by
  decide

/-- The string value written for an identifier: unchanged when it is valid
UTF-8 ("m1", "é"), with U+FFFD for every invalid byte otherwise. -/
theorem jsonStringValue_examples :
    jsonStringValue (ascii "m1") = ascii "m1"
    ∧ jsonStringValue [0xC3, 0xA9] = [0xC3, 0xA9]
    ∧ jsonStringValue [0x6D, 0xFF, 0x31] = [0x6D, 0xEF, 0xBF, 0xBD, 0x31]
    ∧ jsonStringValue [0xE2, 0x82] = [0xEF, 0xBF, 0xBD, 0xEF, 0xBF, 0xBD] := by
  decide

theorem marshalBatchItemFailures_fieldNames (r : batchItemFailures) :
    (marshalBatchItemFailures r).fieldNames = [ascii "batchItemIdentifier"] := rfl

/-- C5 fails on the code: the serialisation of every report is an object whose
only top-level field is named "batchItemIdentifier", not "batchItemFailures"
(shown on the report of the one failed message "m1" and on the empty report,
which holds `null` under that name). -/
theorem marshalBatchItemFailures_field_name :
    (∀ r, (marshalBatchItemFailures r).fieldNames = [ascii "batchItemIdentifier"])
    ∧ marshalBatchItemFailures { BatchItemFailures := some [⟨ascii "m1"⟩] }
      = Json.object [(ascii "batchItemIdentifier",
          Json.array [Json.object [(ascii "itemIdentifier", Json.string (ascii "m1"))]])]
    ∧ marshalBatchItemFailures { BatchItemFailures := none }
      = Json.object [(ascii "batchItemIdentifier", Json.null)]
    ∧ (marshalBatchItemFailures { BatchItemFailures := some [⟨ascii "m1"⟩] }).fieldNames
      = [ascii "batchItemIdentifier"]
    ∧ ascii "batchItemFailures"
      ∉ (marshalBatchItemFailures { BatchItemFailures := some [⟨ascii "m1"⟩] }).fieldNames := by
  refine ⟨marshalBatchItemFailures_fieldNames, rfl, rfl, rfl, ?_⟩
  rw [marshalBatchItemFailures_fieldNames]
  decide

end Processor

/-! ## Properties of the colour conversion -/

namespace Processor

theorem roundHalfEven_intCast (n : ℤ) : roundHalfEven (n : ℚ) = n := by
  simp [roundHalfEven]

theorem abs_roundHalfEven_sub_le (x : ℚ) : |(roundHalfEven x : ℚ) - x| ≤ 1 / 2 := by
  have h1 : (⌊x⌋ : ℚ) ≤ x := Int.floor_le x
  have h2 : x < ⌊x⌋ + 1 := Int.lt_floor_add_one x
  unfold roundHalfEven
  simp only
  rw [abs_le]
  split_ifs with ha hb hc
  · constructor <;> linarith
  · push_cast; constructor <;> linarith
  · push_neg at ha hb
    constructor <;> linarith
  · push_neg at ha hb
    push_cast; constructor <;> linarith

theorem roundFloat64_natCast (n : ℕ) (h : n < 2 ^ 53) : roundFloat64 (n : ℚ) = n := by
  unfold roundFloat64
  split_ifs with h0
  · exact h0.symm
  · have hn : n ≠ 0 := by exact_mod_cast h0
    have hL : Nat.log 2 n < 53 := Nat.log_lt_of_lt_pow hn h
    simp only
    rw [abs_of_nonneg (Nat.cast_nonneg n), Int.log_natCast]
    obtain ⟨k, hk⟩ : ∃ k : ℕ, (Nat.log 2 n : ℤ) - 52 = -(k : ℤ) :=
      ⟨52 - Nat.log 2 n, by omega⟩
    rw [hk, zpow_neg, zpow_natCast, div_inv_eq_mul]
    have : ((n : ℚ) * 2 ^ k) = ((n * 2 ^ k : ℕ) : ℤ) := by push_cast; ring
    rw [this, roundHalfEven_intCast]
    push_cast
    field_simp

theorem abs_roundFloat64_sub_le (x : ℚ) (hx : 0 < x) :
    |roundFloat64 x - x| ≤ x / 2 ^ 53 := by
  unfold roundFloat64
  rw [if_neg hx.ne']
  simp only
  rw [abs_of_pos hx]
  set e : ℤ := Int.log 2 x - 52 with he
  have hs : (0 : ℚ) < 2 ^ e := zpow_pos (by norm_num) e
  have hr := abs_roundHalfEven_sub_le (x / 2 ^ e)
  have h1 : (roundHalfEven (x / 2 ^ e) : ℚ) * 2 ^ e - x
      = ((roundHalfEven (x / 2 ^ e) : ℚ) - x / 2 ^ e) * 2 ^ e := by
    field_simp
  rw [h1, abs_mul, abs_of_pos hs]
  have h2 : (2 : ℚ) ^ e ≤ x / 2 ^ 52 := by
    have hlog : ((2 : ℕ) : ℚ) ^ Int.log 2 x ≤ x := Int.zpow_log_le_self (by norm_num) hx
    have : (2 : ℚ) ^ e = 2 ^ Int.log 2 x / 2 ^ 52 := by
      rw [he, zpow_sub₀ (by norm_num)]
      norm_cast
    rw [this]
    have hlog2 : (2 : ℚ) ^ Int.log 2 x ≤ x := by exact_mod_cast hlog
    exact div_le_div_of_nonneg_right hlog2 (by positivity)
  calc |(roundHalfEven (x / 2 ^ e) : ℚ) - x / 2 ^ e| * 2 ^ e
      ≤ 1 / 2 * 2 ^ e := by gcongr
    _ ≤ 1 / 2 * (x / 2 ^ 52) := by gcongr
    _ = x / 2 ^ 53 := by ring

theorem normalize_eq (i : ℕ) (hi : i < 2 ^ 32) : normalize i = i * 255 / 65535 := by
  have h1 : float64OfNat i = i := roundFloat64_natCast i (by omega)
  have h2 : float64OfNat 255 = 255 := by
    have := roundFloat64_natCast 255 (by norm_num)
    exact_mod_cast this
  have h3 : float64OfNat 65535 = 65535 := by
    have := roundFloat64_natCast 65535 (by norm_num)
    exact_mod_cast this
  have h4 : mulFloat64 (i : ℚ) 255 = ((i * 255 : ℕ) : ℚ) := by
    have := roundFloat64_natCast (i * 255) (by omega)
    unfold mulFloat64
    rw [← this]
    push_cast
    rfl
  unfold normalize
  rw [h1, h2, h3, h4]
  set p := i * 255 with hp
  have hp40 : p < 2 ^ 40 := by omega
  set k := p / 65535 with hk
  have hk32 : k < 2 ^ 32 := by omega
  have hdecomp : p = 65535 * k + p % 65535 := (Nat.div_add_mod p 65535).symm
  have hr : p % 65535 < 65535 := Nat.mod_lt _ (by norm_num)
  suffices hfl : ⌊divFloat64 (p : ℚ) 65535⌋ = (k : ℤ) ∧ 0 ≤ divFloat64 (p : ℚ) 65535 by
    unfold uint32OfFloat64
    rw [if_pos hfl.2, hfl.1, Int.toNat_natCast]
    exact Nat.mod_eq_of_lt hk32
  by_cases hr0 : p % 65535 = 0
  · have hpk : (p : ℚ) / 65535 = (k : ℚ) := by
      have : p = 65535 * k := by omega
      rw [this]; push_cast; field_simp
    unfold divFloat64
    rw [hpk, roundFloat64_natCast k (by omega)]
    exact ⟨by simp, by positivity⟩
  · have hppos : 0 < p := by omega
    have hx : (0 : ℚ) < (p : ℚ) / 65535 := by positivity
    have herr := abs_roundFloat64_sub_le _ hx
    rw [abs_le] at herr
    have hpq : (p : ℚ) = 65535 * k + (p % 65535 : ℕ) := by exact_mod_cast hdecomp
    have hrq1 : (1 : ℚ) ≤ (p % 65535 : ℕ) := by exact_mod_cast Nat.one_le_iff_ne_zero.mpr hr0
    have hrq2 : ((p % 65535 : ℕ) : ℚ) ≤ 65534 := by exact_mod_cast Nat.le_of_lt_succ hr
    have hpq40 : (p : ℚ) < 2 ^ 40 := by exact_mod_cast hp40
    have hxk : (p : ℚ) / 65535 = k + ((p % 65535 : ℕ) : ℚ) / 65535 := by
      rw [hpq]; field_simp; ring
    have hsmall : (p : ℚ) / 65535 / 2 ^ 53 < 1 / 65535 := by
      have e : (p : ℚ) / 65535 / 2 ^ 53 = (p : ℚ) / 2 ^ 53 * (1 / 65535) := by ring
      have hlt : (p : ℚ) / 2 ^ 53 < 1 := by
        rw [div_lt_one (by positivity)]
        exact lt_trans hpq40 (by norm_num)
      rw [e]
      exact mul_lt_of_lt_one_left (by norm_num) hlt
    have hlo : (k : ℚ) < divFloat64 (p : ℚ) 65535 := by
      unfold divFloat64
      have : (k : ℚ) + 1 / 65535 ≤ (p : ℚ) / 65535 := by
        rw [hxk]; gcongr
      linarith [herr.1]
    have hhi : divFloat64 (p : ℚ) 65535 < k + 1 := by
      unfold divFloat64
      have : (p : ℚ) / 65535 ≤ k + 1 - 1 / 65535 := by
        rw [hxk]
        have : ((p % 65535 : ℕ) : ℚ) / 65535 ≤ 65534 / 65535 := by gcongr
        linarith
      linarith [herr.2]
    refine ⟨?_, le_trans (by positivity) hlo.le⟩
    rw [Int.floor_eq_iff]
    exact ⟨by exact_mod_cast hlo.le, by exact_mod_cast hhi⟩

theorem normalize_le (i : ℕ) (hi : i ≤ 65535) : normalize i ≤ 255 := by
  rw [normalize_eq i (by omega)]
  omega

set_option maxRecDepth 100000 in
theorem fmtHex_byte : ∀ n : Fin 256, fmtHex n
    = if (n : ℕ) < 16 then [ldigits.getD n 0]
      else [ldigits.getD (n / 16) 0, ldigits.getD (n % 16) 0] := by
  decide

/-- The width of the result of `rgbToHex`: each channel gives one hexadecimal
digit when its normalized value is below 16 and two otherwise, so the result
has between 3 and 6 characters. -/
theorem rgbToHex_length (c : RGBA) (hr : c.r ≤ 65535) (hg : c.g ≤ 65535) (hb : c.b ≤ 65535) :
    (rgbToHex c).length
      = (if c.r * 255 / 65535 < 16 then 1 else 2) + (if c.g * 255 / 65535 < 16 then 1 else 2)
        + (if c.b * 255 / 65535 < 16 then 1 else 2) := by
  have key : ∀ i, i ≤ 65535 →
      (fmtHex (normalize i)).length = if i * 255 / 65535 < 16 then 1 else 2 := by
    intro i hi
    have h := fmtHex_byte ⟨normalize i, by have := normalize_le i hi; omega⟩
    simp only at h
    rw [h, normalize_eq i (by omega)]
    split_ifs <;> rfl
  simp only [rgbToHex, List.length_append, key _ hr, key _ hg, key _ hb]

/-- C10 fails on the code: the result is not of fixed width.  Black, whose
channels are all 0, gives the three characters "000"; the colour with channels
(0, 65535, 0) gives the four characters "0ff0"; only when every normalized
channel is at least 16, as for white, are there six characters. -/
theorem rgbToHex_not_fixed_width :
    rgbToHex ⟨0, 0, 0, 65535⟩ = ascii "000"
    ∧ (rgbToHex ⟨0, 0, 0, 65535⟩).length = 3
    ∧ rgbToHex ⟨0, 65535, 0, 65535⟩ = ascii "0ff0"
    ∧ rgbToHex ⟨65535, 65535, 65535, 65535⟩ = ascii "ffffff"
    ∧ normalize 0 = 0 ∧ normalize 65535 = 255 := by
  have h0 : normalize 0 = 0 := by rw [normalize_eq 0 (by norm_num)]
  have h1 : normalize 65535 = 255 := by rw [normalize_eq 65535 (by norm_num)]
  refine ⟨?_, ?_, ?_, ?_, h0, h1⟩
  · simp only [rgbToHex, h0]; decide
  · simp only [rgbToHex, h0]; decide
  · simp only [rgbToHex, h0, h1]; decide
  · simp only [rgbToHex, h1]; decide

end Processor

/-! ## Properties of the worker pool -/

namespace Processor

section StageLemmas

variable {A B E : Type}

theorem held_set (workFunc : A → Except E B) (ws : List (Worker A B E)) (i : Nat)
    (w w1 : Worker A B E) (h : ws.get? i = some w) :
    (↑((ws.set i w1).flatMap (Worker.held workFunc)) : Multiset (Except E B))
        + ↑(Worker.held workFunc w)
      = ↑(ws.flatMap (Worker.held workFunc)) + ↑(Worker.held workFunc w1) := by
  induction ws generalizing i with
  | nil => simp at h
  | cons x ws ih =>
    cases i with
    | zero =>
      simp at h
      subst h
      simp only [List.set_cons_zero, List.flatMap_cons, ← Multiset.coe_add]
      abel
    | succ i =>
      have h1 : ws.get? i = some w := by simpa using h
      have := ih i h1
      simp only [List.set_cons_succ, List.flatMap_cons, ← Multiset.coe_add]
      rw [add_assoc, this, add_assoc]

theorem live_set (ws : List (Worker A B E)) (i : Nat) (w w1 : Worker A B E)
    (h : ws.get? i = some w) :
    Stage.live (ws.set i w1) + (if w.isExited then 0 else 1)
      = Stage.live ws + (if w1.isExited then 0 else 1) := by
  induction ws generalizing i with
  | nil => simp at h
  | cons x ws ih =>
    cases i with
    | zero =>
      simp at h
      subst h
      simp only [Stage.live, List.set_cons_zero, List.countP_cons]
      cases hx : x.isExited <;> cases hw : w1.isExited <;> simp
    | succ i =>
      have h1 : ws.get? i = some w := by simpa using h
      have := ih i h1
      simp only [Stage.live, List.set_cons_succ, List.countP_cons] at this ⊢
      omega

theorem live_append_receiving (ws : List (Worker A B E)) :
    Stage.live (ws ++ [Worker.receiving]) = Stage.live ws + 1 := by
  simp [Stage.live, Worker.isExited]

theorem live_eq_zero_iff (ws : List (Worker A B E)) :
    Stage.live ws = 0 ↔ ∀ w ∈ ws, w = Worker.exited := by
  simp only [Stage.live, List.countP_eq_zero]
  constructor
  · intro h w hw
    have := h w hw
    cases w <;> simp_all [Worker.isExited]
  · intro h w hw
    rw [h w hw]
    simp [Worker.isExited]

theorem exited_of_mem_set (ws : List (Worker A B E)) (i : Nat) (w1 : Worker A B E)
    (h : ∃ w ∈ ws.set i w1, w = Worker.exited) :
    w1 = Worker.exited ∨ ∃ w ∈ ws, w = Worker.exited := by
  obtain ⟨w, hw, rfl⟩ := h
  rcases List.mem_or_eq_of_mem_set hw with h1 | h1
  · exact Or.inr ⟨_, h1, rfl⟩
  · exact Or.inl h1.symm

theorem outSent_append_send (s : Stage A B E) (b : B) :
    List.filterMap (fun ev => match ev with
        | ChanEvent.send v => some v
        | ChanEvent.close => none) (s.outChan ++ [ChanEvent.send b])
      = s.outSent ++ [b] := by
  simp [Stage.outSent, List.filterMap_append]

theorem outSent_append_close (s : Stage A B E) :
    List.filterMap (fun ev => match ev with
        | ChanEvent.send v => some v
        | ChanEvent.close => none) (s.outChan ++ [(ChanEvent.close : ChanEvent B)])
      = s.outSent := by
  simp [Stage.outSent, List.filterMap_append]

theorem not_exited_of_get (ws : List (Worker A B E)) (i : Nat) (w : Worker A B E)
    (h : ws.get? i = some w) (hw : w.isExited = false) : Stage.live ws ≠ 0 := by
  intro h0
  have hmem : w ∈ ws := List.get?_mem h
  rw [(live_eq_zero_iff ws).mp h0 w hmem] at hw
  simp [Worker.isExited] at hw

theorem Stage.Inv.init (numWorkers : Nat) (workFunc : A → Except E B) (xs : List A) :
    Stage.Inv numWorkers workFunc xs (Stage.init xs) where
  notPanicked := rfl
  accounted := by simp [Stage.accounted, Stage.init, Stage.outSent]
  wgLive := by simp [Stage.init, Stage.live]
  spawned := rfl
  loopBound := by
    intro i hi
    simp [Stage.init] at hi
    omega
  allExited := by simp [Stage.init]
  closedIff := by simp [Stage.init]
  outShape := by simp [Stage.init, Stage.outSent]
  drained := by simp [Stage.init]

/-- What a step of a worker that replaces its state `w` by `w1` keeps of the
invariant, whatever else the step does to the channels. -/
theorem Stage.Inv.worker_update {numWorkers : Nat} {workFunc : A → Except E B} {xs : List A}
    {s s1 : Stage A B E} (h : Stage.Inv numWorkers workFunc xs s) (i : Nat)
    (w w1 : Worker A B E) (hget : s.workers.get? i = some w) (hw : w.isExited = false)
    (hworkers : s1.workers = s.workers.set i w1)
    (hspawner : s1.spawner = s.spawner)
    (hpanicked : s1.panicked = s.panicked)
    (hinClosed : s1.inClosed = s.inClosed)
    (houtClosed : s1.outClosed = s.outClosed)
    (hwg : s1.wg = s.wg - (if w1.isExited then 1 else 0))
    (hacc : Stage.accounted workFunc s1 = Stage.accounted workFunc s)
    (hout : s1.outChan = s.outChan ∨
      (s.outClosed = false ∧ ∃ b, s1.outChan = s.outChan ++ [ChanEvent.send b]))
    (hdrained : w1 = Worker.exited → s.inClosed = true ∧ s.pending = [])
    (hpending : s.pending = [] → s1.pending = []) :
    Stage.Inv numWorkers workFunc xs s1 where
  notPanicked := by rw [hpanicked]; exact h.notPanicked
  accounted := by rw [hacc]; exact h.accounted
  wgLive := by
    have hl := live_set s.workers i w w1 hget
    rw [hwg, hworkers, h.wgLive]
    cases hx : w1.isExited <;> simp [hw, hx] at hl ⊢ <;> omega
  spawned := by rw [hworkers, hspawner, List.length_set]; exact h.spawned
  loopBound := by rw [hspawner]; exact h.loopBound
  allExited := by
    rw [hspawner]
    intro hsp
    exact absurd (h.allExited hsp) (not_exited_of_get s.workers i w hget hw)
  closedIff := by rw [houtClosed, hspawner]; exact h.closedIff
  outShape := by
    rcases hout with ho | ⟨hc, b, ho⟩
    · simp only [Stage.outSent, ho, houtClosed]
      exact h.outShape
    · have hs := h.outShape
      rw [hc] at hs
      simp only [Bool.false_eq_true, if_false, List.append_nil] at hs
      simp only [Stage.outSent, ho, houtClosed, hc, Bool.false_eq_true, if_false,
        List.append_nil]
      rw [outSent_append_send, List.map_append, ← hs]
      rfl
  drained := by
    rw [hworkers, hinClosed]
    intro hex
    rcases exited_of_mem_set s.workers i w1 hex with h1 | h1
    · exact ⟨(hdrained h1).1, hpending (hdrained h1).2⟩
    · exact ⟨(h.drained h1).1, hpending (h.drained h1).2⟩

theorem Stage.Inv.stepSpawner {numWorkers : Nat} {workFunc : A → Except E B} {xs : List A}
    {s s1 : Stage A B E} (h : Stage.Inv numWorkers workFunc xs s)
    (hs : Stage.stepSpawner numWorkers s = some s1) :
    Stage.Inv numWorkers workFunc xs s1 := by
  unfold Stage.stepSpawner at hs
  have hc := h.closedIff
  have hsh := h.outShape
  have hsp := h.spawned
  split at hs
  · rename_i i hi
    have hnc : s.outClosed = false := by
      cases hb : s.outClosed
      · rfl
      · rw [hc.mp hb] at hi; cases hi
    split at hs
    · rename_i hlt
      cases hs
      refine ⟨h.notPanicked, ?_, ?_, ?_, ?_, ?_, ?_, ?_, ?_⟩
      · have := h.accounted
        simpa [Stage.accounted, Stage.outSent, Worker.held] using this
      · show s.wg + 1 = ((Stage.live (s.workers ++ [Worker.receiving]) : Nat) : Int)
        rw [live_append_receiving, h.wgLive]
        push_cast
        rfl
      · show (s.workers ++ [Worker.receiving]).length = i + 1
        rw [hi] at hsp
        simp [hsp]
      · intro j hj
        cases hj
        exact hlt
      · intro hx
        rcases hx with hx | hx <;> cases hx
      · show s.outClosed = true ↔ Spawner.looping (i + 1) = Spawner.finished
        simp [hnc]
      · exact hsh
      · intro hex
        apply h.drained
        obtain ⟨w, hw, rfl⟩ := hex
        rcases List.mem_append.mp hw with h1 | h1
        · exact ⟨_, h1, rfl⟩
        · simp at h1
    · rename_i hge
      cases hs
      refine ⟨h.notPanicked, h.accounted, h.wgLive, ?_, ?_, ?_, ?_, hsh, h.drained⟩
      · show s.workers.length = numWorkers
        rw [hi] at hsp
        have := h.loopBound i hi
        simp only at hsp
        omega
      · intro j hj
        cases hj
      · intro hx
        rcases hx with hx | hx <;> cases hx
      · show s.outClosed = true ↔ Spawner.waiting = Spawner.finished
        simp [hnc]
  · rename_i hi
    have hnc : s.outClosed = false := by
      cases hb : s.outClosed
      · rfl
      · rw [hc.mp hb] at hi; cases hi
    split at hs
    · rename_i hwg
      cases hs
      refine ⟨h.notPanicked, h.accounted, h.wgLive, ?_, ?_, ?_, ?_, hsh, h.drained⟩
      · rw [hi] at hsp; exact hsp
      · intro j hj
        cases hj
      · intro _
        have := h.wgLive
        rw [hwg] at this
        exact_mod_cast this.symm
      · show s.outClosed = true ↔ Spawner.closing = Spawner.finished
        simp [hnc]
    · cases hs
  · rename_i hi
    have hnc : s.outClosed = false := by
      cases hb : s.outClosed
      · rfl
      · rw [hc.mp hb] at hi; cases hi
    cases hs
    refine ⟨h.notPanicked, ?_, h.wgLive, ?_, ?_, ?_, ?_, ?_, h.drained⟩
    · have := h.accounted
      simp only [Stage.accounted, Stage.outSent] at this ⊢
      rw [outSent_append_close]
      exact this
    · rw [hi] at hsp; exact hsp
    · intro j hj
      cases hj
    · intro _
      exact h.allExited (Or.inl hi)
    · simp
    · rw [hnc] at hsh
      simp only [Bool.false_eq_true, if_false, List.append_nil] at hsh
      simp only [Stage.outSent, if_true]
      rw [outSent_append_close, ← hsh]
  · cases hs

theorem Stage.Inv.stepWorker {numWorkers : Nat} {workFunc : A → Except E B} {xs : List A}
    {s s1 : Stage A B E} (h : Stage.Inv numWorkers workFunc xs s) (i : Nat)
    (hs : Stage.stepWorker workFunc i s = some s1) :
    Stage.Inv numWorkers workFunc xs s1 := by
  unfold Stage.stepWorker at hs
  split at hs
  · cases hs
  · rename_i hget
    split at hs
    · rename_i inValue rest hp
      cases hs
      refine h.worker_update i Worker.receiving (Worker.working inValue) hget rfl rfl rfl rfl
        rfl rfl (by simp [Worker.isExited]) ?_ (Or.inl rfl) (by intro hx; cases hx) ?_
      · have hh := held_set workFunc s.workers i _ (Worker.working inValue) hget
        simp only [Stage.accounted, Stage.outSent, hp, List.map_cons]
        simp only [Worker.held, Multiset.coe_nil, add_zero] at hh
        rw [hh]
        simp only [← Multiset.cons_coe, Multiset.coe_nil, Multiset.cons_zero,
          ← Multiset.singleton_add (workFunc inValue) (↑(List.map workFunc rest))]
        abel
      · intro hnil
        rw [hp] at hnil
        cases hnil
    · rename_i hp
      split at hs
      · rename_i hcl
        cases hs
        refine h.worker_update i Worker.receiving Worker.exited hget rfl rfl rfl rfl rfl rfl
          (by simp [Worker.isExited]) ?_ (Or.inl rfl) (fun _ => ⟨hcl, hp⟩) (fun hx => hx)
        have hh := held_set workFunc s.workers i _ Worker.exited hget
        simp only [Stage.accounted, Stage.outSent]
        simp only [Worker.held, Multiset.coe_nil, add_zero] at hh
        rw [hh]
      · cases hs
  · rename_i inValue hget
    split at hs
    · rename_i err hf
      cases hs
      refine h.worker_update i (Worker.working inValue) (Worker.sendingErr err) hget rfl rfl rfl
        rfl rfl rfl (by simp [Worker.isExited]) ?_ (Or.inl rfl) (by intro hx; cases hx)
        (fun hx => hx)
      have hh := held_set workFunc s.workers i _ (Worker.sendingErr err) hget
      simp only [Worker.held, hf] at hh
      simp only [Stage.accounted, Stage.outSent]
      rw [add_left_inj] at hh
      rw [hh]
    · rename_i outValue hf
      cases hs
      refine h.worker_update i (Worker.working inValue) (Worker.sendingOut outValue) hget rfl rfl
        rfl rfl rfl rfl (by simp [Worker.isExited]) ?_ (Or.inl rfl) (by intro hx; cases hx)
        (fun hx => hx)
      have hh := held_set workFunc s.workers i _ (Worker.sendingOut outValue) hget
      simp only [Worker.held, hf] at hh
      simp only [Stage.accounted, Stage.outSent]
      rw [add_left_inj] at hh
      rw [hh]
  · rename_i err hget
    cases hs
    refine h.worker_update i (Worker.sendingErr err) Worker.receiving hget rfl rfl rfl rfl
      rfl rfl (by simp [Worker.isExited]) ?_ (Or.inl rfl) (by intro hx; cases hx) (fun hx => hx)
    have hh := held_set workFunc s.workers i _ Worker.receiving hget
    simp only [Worker.held, Multiset.coe_nil, add_zero] at hh
    simp only [Stage.accounted, Stage.outSent, List.map_append, List.map_cons, List.map_nil,
      ← Multiset.coe_add]
    rw [← hh]
    abel
  · rename_i outValue hget
    split at hs
    · rename_i hcl
      have hfin := h.closedIff.mp hcl
      exact absurd (h.allExited (Or.inr hfin)) (not_exited_of_get s.workers i _ hget rfl)
    · rename_i hcl
      cases hs
      have hcl2 : s.outClosed = false := by simpa using hcl
      refine h.worker_update i (Worker.sendingOut outValue) Worker.receiving hget rfl rfl rfl rfl
        rfl rfl (by simp [Worker.isExited]) ?_ (Or.inr ⟨hcl2, outValue, rfl⟩)
        (by intro hx; cases hx) (fun hx => hx)
      have hh := held_set workFunc s.workers i _ Worker.receiving hget
      simp only [Worker.held, Multiset.coe_nil, add_zero] at hh
      simp only [Stage.accounted, Stage.outSent]
      rw [outSent_append_send, List.map_append, List.map_cons, List.map_nil, ← Multiset.coe_add,
        ← hh]
      simp only [Stage.outSent]
      abel
  · cases hs

theorem Stage.Inv.step {numWorkers : Nat} {workFunc : A → Except E B} {xs : List A}
    {s s1 : Stage A B E} (h : Stage.Inv numWorkers workFunc xs s) (a : Action)
    (hs : Stage.step numWorkers workFunc a s = some s1) :
    Stage.Inv numWorkers workFunc xs s1 := by
  unfold Stage.step at hs
  split at hs
  · cases hs
  · cases a with
    | closeIn =>
      simp only at hs
      split at hs
      · cases hs
      · cases hs
        exact ⟨h.notPanicked, h.accounted, h.wgLive, h.spawned, h.loopBound, h.allExited,
          h.closedIff, h.outShape, fun hex => ⟨rfl, (h.drained hex).2⟩⟩
    | spawner => exact h.stepSpawner hs
    | worker i => exact h.stepWorker i hs

theorem Stage.Inv.run {numWorkers : Nat} {workFunc : A → Except E B} {xs : List A}
    (acts : List Action) {s s1 : Stage A B E} (h : Stage.Inv numWorkers workFunc xs s)
    (hs : Stage.run numWorkers workFunc acts s = some s1) :
    Stage.Inv numWorkers workFunc xs s1 := by
  induction acts generalizing s with
  | nil =>
    cases hs
    exact h
  | cons a acts ih =>
    unfold Stage.run at hs
    split at hs
    · cases hs
    · rename_i s2 hstep
      exact ih (h.step a hstep) hs

theorem Stage.run_append (numWorkers : Nat) (workFunc : A → Except E B)
    (acts1 acts2 : List Action) (s : Stage A B E) :
    Stage.run numWorkers workFunc (acts1 ++ acts2) s
      = (Stage.run numWorkers workFunc acts1 s).bind (Stage.run numWorkers workFunc acts2) := by
  induction acts1 generalizing s with
  | nil => rfl
  | cons a acts1 ih =>
    simp only [List.cons_append, Stage.run]
    cases Stage.step numWorkers workFunc a s with
    | none => rfl
    | some s1 => exact ih s1

theorem Stage.run_spawnLoop (numWorkers : Nat) (workFunc : A → Except E B) (k : Nat)
    (s : Stage A B E) (hp : s.panicked = false) (hk : k ≤ numWorkers)
    (hsp : s.spawner = Spawner.looping (numWorkers - k)) :
    Stage.run numWorkers workFunc (List.replicate (k + 1) Action.spawner) s
      = some { s with spawner := Spawner.waiting,
                      workers := s.workers ++ List.replicate k Worker.receiving,
                      wg := s.wg + k } := by
  induction k generalizing s with
  | zero =>
    simp [Stage.run, Stage.step, Stage.stepSpawner, hp, hsp]
  | succ k ih =>
    have hlt : numWorkers - (k + 1) < numWorkers := by omega
    have hstep : Stage.step numWorkers workFunc Action.spawner s
        = some { s with wg := s.wg + 1, workers := s.workers ++ [Worker.receiving],
                        spawner := Spawner.looping (numWorkers - k) } := by
      simp only [Stage.step, hp, Bool.false_eq_true, if_false, Stage.stepSpawner, hsp, hlt,
        if_true]
      have : numWorkers - (k + 1) + 1 = numWorkers - k := by omega
      rw [this]
    have hrec := ih { s with wg := s.wg + 1, workers := s.workers ++ [Worker.receiving],
                             spawner := Spawner.looping (numWorkers - k) } hp (by omega) rfl
    rw [List.replicate_succ, Stage.run, hstep]
    simp only
    rw [hrec]
    simp only [List.append_assoc, List.singleton_append, ← List.replicate_succ]
    congr 2
    push_cast
    ring

theorem Stage.run_item (numWorkers : Nat) (workFunc : A → Except E B) (s : Stage A B E)
    (x : A) (rest : List A) (ws : List (Worker A B E)) (hp : s.panicked = false)
    (hpend : s.pending = x :: rest) (hw : s.workers = Worker.receiving :: ws)
    (hoc : s.outClosed = false) :
    ∃ s1, Stage.run numWorkers workFunc
        [Action.worker 0, Action.worker 0, Action.worker 0] s = some s1
      ∧ s1.pending = rest ∧ s1.workers = s.workers ∧ s1.spawner = s.spawner ∧ s1.wg = s.wg
      ∧ s1.inClosed = s.inClosed ∧ s1.panicked = false ∧ s1.outClosed = false := by
  cases hf : workFunc x with
  | error e =>
    refine ⟨{ s with pending := rest, errChan := s.errChan ++ [e] }, ?_, rfl, rfl, rfl, rfl, rfl,
      hp, hoc⟩
    simp [Stage.run, Stage.step, Stage.stepWorker, hp, hpend, hw, hf]
  | ok b =>
    refine ⟨{ s with pending := rest, outChan := s.outChan ++ [ChanEvent.send b] }, ?_, rfl, rfl,
      rfl, rfl, rfl, hp, hoc⟩
    simp [Stage.run, Stage.step, Stage.stepWorker, hp, hpend, hw, hf, hoc]

theorem Stage.run_items (numWorkers : Nat) (workFunc : A → Except E B) (xs : List A)
    (s : Stage A B E) (ws : List (Worker A B E)) (hp : s.panicked = false)
    (hpend : s.pending = xs) (hw : s.workers = Worker.receiving :: ws)
    (hoc : s.outClosed = false) :
    ∃ s1, Stage.run numWorkers workFunc
        (List.replicate xs.length
          [Action.worker 0, Action.worker 0, Action.worker 0]).flatten s = some s1
      ∧ s1.pending = [] ∧ s1.workers = s.workers ∧ s1.spawner = s.spawner ∧ s1.wg = s.wg
      ∧ s1.inClosed = s.inClosed ∧ s1.panicked = false ∧ s1.outClosed = false := by
  induction xs generalizing s with
  | nil => exact ⟨s, rfl, hpend, rfl, rfl, rfl, rfl, hp, hoc⟩
  | cons x xs ih =>
    obtain ⟨s1, hrun1, h1, h2, h3, h4, h5, h6, h7⟩ :=
      Stage.run_item numWorkers workFunc s x xs ws hp hpend hw hoc
    obtain ⟨s2, hrun2, g1, g2, g3, g4, g5, g6, g7⟩ := ih s1 h6 h1 (h2.trans hw) h7
    refine ⟨s2, ?_, g1, g2.trans h2, g3.trans h3, g4.trans h4, g5.trans h5, g6, g7⟩
    rw [List.length_cons, List.replicate_succ, List.flatten_cons, Stage.run_append, hrun1]
    exact hrun2

theorem Stage.run_exits (numWorkers : Nat) (workFunc : A → Except E B) (m : Nat)
    (s : Stage A B E) (gone : List (Worker A B E)) (hp : s.panicked = false)
    (hpend : s.pending = []) (hin : s.inClosed = true)
    (hw : s.workers = gone ++ List.replicate m Worker.receiving) :
    ∃ s1, Stage.run numWorkers workFunc ((List.range' gone.length m).map Action.worker) s
        = some s1
      ∧ s1.workers = gone ++ List.replicate m Worker.exited ∧ s1.wg = s.wg - m
      ∧ s1.spawner = s.spawner ∧ s1.panicked = false := by
  induction m generalizing s gone with
  | zero => exact ⟨s, rfl, by simpa using hw, by simp, rfl, hp⟩
  | succ m ih =>
    have hget : s.workers[gone.length]? = some Worker.receiving := by
      rw [hw, List.getElem?_append_right (le_refl _)]
      simp [List.replicate_succ]
    have hstep : Stage.step numWorkers workFunc (Action.worker gone.length) s
        = some { s with workers := s.workers.set gone.length Worker.exited, wg := s.wg - 1 } := by
      simp [Stage.step, Stage.stepWorker, hp, hget, hpend, hin]
    have hw1 : s.workers.set gone.length Worker.exited
        = (gone ++ [Worker.exited]) ++ List.replicate m Worker.receiving := by
      rw [hw, List.set_append_right _ _ (le_refl _)]
      simp [List.replicate_succ]
    obtain ⟨s1, hrun, h1, h2, h3, h4⟩ :=
      ih { s with workers := s.workers.set gone.length Worker.exited, wg := s.wg - 1 }
        (gone ++ [Worker.exited]) hp hpend hin hw1
    refine ⟨s1, ?_, ?_, ?_, h3, h4⟩
    · rw [List.range'_succ, List.map_cons, Stage.run, hstep]
      simpa using hrun
    · rw [h1]; simp [List.replicate_succ]
    · rw [h2]; push_cast; ring

/-- The schedule `Stage.schedule` runs `startWorkers` to completion: for every
pool size of at least one worker and every input there is a complete
execution. -/
theorem Stage.run_schedule (numWorkers : Nat) (hn : 1 ≤ numWorkers) (workFunc : A → Except E B)
    (xs : List A) :
    ∃ s, Stage.run numWorkers workFunc (Stage.schedule numWorkers xs.length) (Stage.init xs)
        = some s ∧ s.spawner = Spawner.finished := by
  have h1 := Stage.run_spawnLoop numWorkers workFunc numWorkers (Stage.init xs : Stage A B E) rfl
    (le_refl _) (by simp [Stage.init])
  obtain ⟨ws, hws⟩ : ∃ ws, List.replicate numWorkers (Worker.receiving : Worker A B E)
      = Worker.receiving :: ws := by
    obtain ⟨k, rfl⟩ : ∃ k, numWorkers = k + 1 := ⟨numWorkers - 1, by omega⟩
    exact ⟨_, List.replicate_succ _ _⟩
  obtain ⟨s2, h2, p1, p2, p3, p4, p5, p6, p7⟩ := Stage.run_items numWorkers workFunc xs
    { (Stage.init xs : Stage A B E) with
        spawner := Spawner.waiting,
        workers := (Stage.init xs : Stage A B E).workers
          ++ List.replicate numWorkers Worker.receiving,
        wg := (Stage.init xs : Stage A B E).wg + numWorkers } ws rfl rfl
    (by simpa [Stage.init] using hws) rfl
  have h3 : Stage.step numWorkers workFunc Action.closeIn s2
      = some { s2 with inClosed := true } := by
    have : s2.inClosed = false := p5
    simp [Stage.step, p6, this]
  obtain ⟨s4, h4, q1, q2, q3, q4⟩ := Stage.run_exits numWorkers workFunc numWorkers
    { s2 with inClosed := true } [] p6 p1 rfl (by simpa [Stage.init] using p2)
  have hwg : s4.wg = 0 := by
    rw [q2]
    show s2.wg - numWorkers = 0
    rw [p4]
    simp [Stage.init]
  have hsp : s4.spawner = Spawner.waiting := q3.trans p3
  refine ⟨{ s4 with outChan := s4.outChan ++ [ChanEvent.close], outClosed := true,
                    spawner := Spawner.finished }, ?_, rfl⟩
  unfold Stage.schedule
  rw [Stage.run_append, Stage.run_append, Stage.run_append, Stage.run_append, h1]
  simp only [Option.some_bind, Option.bind_eq_bind]
  rw [h2]
  simp only [Option.some_bind, Stage.run, h3]
  rw [List.range_eq_range']
  simp only [List.length_nil] at h4
  rw [h4]
  simp [Stage.run, Stage.step, Stage.stepSpawner, q4, hsp, hwg]

end StageLemmas

end Processor

namespace Processor

theorem filterMap_okOf_results {B E : Type} (errs : List E) (outs : List B) :
    (errs.map (fun e => (Except.error e : Except E B))
        ++ outs.map (fun b => (Except.ok b : Except E B))).filterMap okOf = outs := by
  rw [List.filterMap_append, List.filterMap_map, List.filterMap_map]
  have h1 : (okOf ∘ fun e => (Except.error e : Except E B)) = fun _ => none := rfl
  have h2 : (okOf ∘ fun b => (Except.ok b : Except E B)) = some := rfl
  rw [h1, h2]
  simp

theorem filterMap_errOf_results {B E : Type} (errs : List E) (outs : List B) :
    (errs.map (fun e => (Except.error e : Except E B))
        ++ outs.map (fun b => (Except.ok b : Except E B))).filterMap errOf = errs := by
  rw [List.filterMap_append, List.filterMap_map, List.filterMap_map]
  have h1 : (errOf ∘ fun e => (Except.error e : Except E B)) = some := rfl
  have h2 : (errOf ∘ fun b => (Except.ok b : Except E B)) = fun _ => none := rfl
  rw [h1, h2]
  simp

theorem Stage.Inv.finished_perm {A B E : Type} {numWorkers : Nat} {workFunc : A → Except E B}
    {xs : List A} {s : Stage A B E} (h : Stage.Inv numWorkers workFunc xs s)
    (hn : 1 ≤ numWorkers) (hfin : s.spawner = Spawner.finished) :
    s.pending = [] ∧ (∀ w ∈ s.workers, w = Worker.exited)
      ∧ (s.errChan.map (fun e => (Except.error e : Except E B))
          ++ s.outSent.map (fun b => (Except.ok b : Except E B))).Perm (xs.map workFunc) := by
  have hall := (live_eq_zero_iff s.workers).mp (h.allExited (Or.inr hfin))
  have hlen : s.workers.length = numWorkers := by
    have := h.spawned
    rw [hfin] at this
    exact this
  have hpend : s.pending = [] := by
    cases hws : s.workers with
    | nil => rw [hws] at hlen; simp at hlen; omega
    | cons w ws =>
      have hw : w ∈ s.workers := by rw [hws]; exact List.mem_cons_self _ _
      exact (h.drained ⟨w, hw, hall w hw⟩).2
  have hheld : s.workers.flatMap (Worker.held workFunc) = [] := by
    rw [List.flatMap_eq_nil_iff]
    intro w hw
    rw [hall w hw]
    rfl
  refine ⟨hpend, hall, ?_⟩
  have hacc := h.accounted
  simp only [Stage.accounted, hpend, hheld, List.map_nil, Multiset.coe_nil, zero_add,
    Multiset.coe_add] at hacc
  exact Multiset.coe_eq_coe.mp hacc

/-- C1: for every pool size of at least one worker, every input sequence and
every `workFunc`, a complete execution of `startWorkers` exists, and every
complete execution has delivered the result of each input value exactly once:
the values sent on `outChan` are, as a multiset, the successful results, the
values sent on `errChan` are the errors, their numbers add up to the length of
the input, and no value is left pending or held by a worker. -/
theorem startWorkers_delivers_each_item_once {A B E : Type} (numWorkers : Nat)
    (hn : 1 ≤ numWorkers) (workFunc : A → Except E B) (xs : List A) :
    (∃ acts s, Stage.run numWorkers workFunc acts (Stage.init xs) = some s
        ∧ s.spawner = Spawner.finished)
    ∧ ∀ acts s, Stage.run numWorkers workFunc acts (Stage.init xs) = some s →
        s.spawner = Spawner.finished →
        (↑s.outSent : Multiset B) = ↑(xs.filterMap (fun x => okOf (workFunc x)))
        ∧ (↑s.errChan : Multiset E) = ↑(xs.filterMap (fun x => errOf (workFunc x)))
        ∧ s.outSent.length + s.errChan.length = xs.length
        ∧ s.pending = [] ∧ (∀ w ∈ s.workers, w = Worker.exited)
        ∧ s.panicked = false := by
  refine ⟨?_, ?_⟩
  · obtain ⟨s, hrun, hfin⟩ := Stage.run_schedule numWorkers hn workFunc xs
    exact ⟨_, s, hrun, hfin⟩
  · intro acts s hrun hfin
    have hinv := (Stage.Inv.init numWorkers workFunc xs).run acts hrun
    obtain ⟨hpend, hall, hperm⟩ := hinv.finished_perm hn hfin
    refine ⟨?_, ?_, ?_, hpend, hall, hinv.notPanicked⟩
    · rw [Multiset.coe_eq_coe]
      have := hperm.filterMap okOf
      rw [filterMap_okOf_results, List.filterMap_map] at this
      exact this
    · rw [Multiset.coe_eq_coe]
      have := hperm.filterMap errOf
      rw [filterMap_errOf_results, List.filterMap_map] at this
      exact this
    · have := hperm.length_eq
      simp only [List.length_append, List.length_map] at this
      omega

/-- An instance of C1: two workers, ten values, the fourth of which fails. -/
theorem startWorkers_delivers_each_item_once_witness :
    1 ≤ 2
    ∧ ((∃ acts s, Stage.run 2 (fun x : Nat => if x = 4 then Except.error x else Except.ok (10 * x))
            acts (Stage.init [1, 2, 3, 4, 5, 6, 7, 8, 9, 10]) = some s
          ∧ s.spawner = Spawner.finished)
      ∧ ∀ acts s, Stage.run 2 (fun x : Nat => if x = 4 then Except.error x else Except.ok (10 * x))
            acts (Stage.init [1, 2, 3, 4, 5, 6, 7, 8, 9, 10]) = some s →
          s.spawner = Spawner.finished →
          (↑s.outSent : Multiset Nat) = ↑(([1, 2, 3, 4, 5, 6, 7, 8, 9, 10] : List Nat).filterMap
              (fun x => okOf (if x = 4 then (Except.error x : Except Nat Nat)
                else Except.ok (10 * x))))
          ∧ (↑s.errChan : Multiset Nat) = ↑(([1, 2, 3, 4, 5, 6, 7, 8, 9, 10] : List Nat).filterMap
              (fun x => errOf (if x = 4 then (Except.error x : Except Nat Nat)
                else Except.ok (10 * x))))
          ∧ s.outSent.length + s.errChan.length
              = ([1, 2, 3, 4, 5, 6, 7, 8, 9, 10] : List Nat).length
          ∧ s.pending = [] ∧ (∀ w ∈ s.workers, w = Worker.exited)
          ∧ s.panicked = false) :=
  ⟨by decide, startWorkers_delivers_each_item_once 2 (by decide) _ _⟩

end Processor

namespace Processor

/-- C6 (as stated) fails for a pool of 0 workers: `outChan` is closed at once,
while `inChan` is still open and the value sent on it has not been received. -/
theorem startWorkers_zero_workers_closes_before_drain :
    Stage.run 0 (fun x : Nat => (Except.ok x : Except Nat Nat))
        [Action.spawner, Action.spawner, Action.spawner] (Stage.init [7])
      = some { pending := [7], inClosed := false, spawner := Spawner.finished, wg := 0,
               workers := [], outChan := [ChanEvent.close], outClosed := true, errChan := [],
               panicked := false } := by
  decide

/-- C6 (amended): in every execution of `startWorkers`, for any pool size,
no send on `outChan` happens after its close (the program never panics on
such a send, and the history of `outChan` is a sequence of sends followed by at
most one close, which is there exactly when the starting goroutine has
finished); when `outChan` is closed all `numWorkers` workers have been started
and have left their loop; and for a pool of at least one worker `inChan` is
then closed and drained. -/
theorem startWorkers_closes_after_workers {A B E : Type} (numWorkers : Nat)
    (workFunc : A → Except E B) (xs : List A) (acts : List Action) (s : Stage A B E)
    (hrun : Stage.run numWorkers workFunc acts (Stage.init xs) = some s) :
    s.panicked = false
    ∧ s.outChan = s.outSent.map ChanEvent.send ++ (if s.outClosed then [ChanEvent.close] else [])
    ∧ (s.outClosed = true ↔ s.spawner = Spawner.finished)
    ∧ (s.outClosed = true →
        s.workers.length = numWorkers ∧ (∀ w ∈ s.workers, w = Worker.exited) ∧ s.wg = 0)
    ∧ (s.outClosed = true → 1 ≤ numWorkers → s.inClosed = true ∧ s.pending = []) := by
  have hinv := (Stage.Inv.init numWorkers workFunc xs).run acts hrun
  refine ⟨hinv.notPanicked, hinv.outShape, hinv.closedIff, ?_, ?_⟩
  · intro hc
    have hfin := hinv.closedIff.mp hc
    have hlive := hinv.allExited (Or.inr hfin)
    refine ⟨?_, (live_eq_zero_iff s.workers).mp hlive, ?_⟩
    · have := hinv.spawned
      rw [hfin] at this
      exact this
    · rw [hinv.wgLive, hlive]
      rfl
  · intro hc hn
    have hfin := hinv.closedIff.mp hc
    have hall := (live_eq_zero_iff s.workers).mp (hinv.allExited (Or.inr hfin))
    have hlen : s.workers.length = numWorkers := by
      have := hinv.spawned
      rw [hfin] at this
      exact this
    cases hws : s.workers with
    | nil => rw [hws] at hlen; simp at hlen; omega
    | cons w ws =>
      have hw : w ∈ s.workers := by rw [hws]; exact List.mem_cons_self _ _
      exact hinv.drained ⟨w, hw, hall w hw⟩

/-- An instance of C6 (amended): a complete execution of two workers on three
values, the second of which fails, in which the two workers take turns. -/
theorem startWorkers_closes_after_workers_witness :
    ∃ s, Stage.run 2 (fun x : Nat => if x = 2 then Except.error x else Except.ok (10 * x))
        [Action.spawner, Action.worker 0, Action.spawner, Action.worker 1, Action.worker 0,
         Action.worker 1, Action.spawner, Action.worker 1, Action.worker 0, Action.worker 0,
         Action.worker 0, Action.closeIn, Action.worker 0, Action.worker 0, Action.worker 1,
         Action.spawner, Action.spawner] (Stage.init [1, 2, 3]) = some s
      ∧ s.outChan = [ChanEvent.send 10, ChanEvent.send 30, ChanEvent.close]
      ∧ s.errChan = [2]
      ∧ (s.panicked = false
        ∧ s.outChan
            = s.outSent.map ChanEvent.send ++ (if s.outClosed then [ChanEvent.close] else [])
        ∧ (s.outClosed = true ↔ s.spawner = Spawner.finished)
        ∧ (s.outClosed = true →
            s.workers.length = 2 ∧ (∀ w ∈ s.workers, w = Worker.exited) ∧ s.wg = 0)
        ∧ (s.outClosed = true → 1 ≤ 2 → s.inClosed = true ∧ s.pending = [])) :=
  have hrun : Stage.run 2 (fun x : Nat => if x = 2 then Except.error x else Except.ok (10 * x))
      [Action.spawner, Action.worker 0, Action.spawner, Action.worker 1, Action.worker 0,
       Action.worker 1, Action.spawner, Action.worker 1, Action.worker 0, Action.worker 0,
       Action.worker 0, Action.closeIn, Action.worker 0, Action.worker 0, Action.worker 1,
       Action.spawner, Action.spawner] (Stage.init [1, 2, 3])
      = some { pending := [], inClosed := true, spawner := Spawner.finished, wg := 0,
               workers := [Worker.exited, Worker.exited],
               outChan := [ChanEvent.send 10, ChanEvent.send 30, ChanEvent.close],
               outClosed := true, errChan := [2], panicked := false } := by decide
  ⟨_, hrun, rfl, rfl, startWorkers_closes_after_workers 2 _ [1, 2, 3] _ _ hrun⟩

end Processor

/-! ## Properties of `HandleRequest` and of the errors of the stages -/

namespace Processor

theorem getImage_error_is_errorString
    (download : GoString → GoString → Except GoString (List UInt8)) (bucket key : GoString)
    (e : GoError) (h : getImage download bucket key = Except.error e) :
    ∃ msg, e = GoError.errorString msg := by
  unfold getImage at h
  split at h
  · cases h
    exact ⟨_, rfl⟩
  · cases h

/-- C2 fails on the code.  Whenever `getImage` fails, its error is the value
built by `fmt.Errorf`, which is not a `messageError` and carries no item
identifier, and the body of the loop of `handleErrors` panics on it.  For the
key "a/bcd.jpg" whose download fails, that value is what the stage sends on
`errChan`, and the type assertion panics in `handleErrors` alone and in a run
of `HandleRequest`. -/
theorem getImage_failure_is_not_a_messageError :
    (∀ download bucket key e r, getImage download bucket key = Except.error e →
        handleErrorsStep r e = none)
    ∧ Option.map (fun s => s.errChan)
        (Stage.run 1
          (getImage (fun _ _ => Except.error (ascii "NoSuchKey")) (ascii "bucket"))
          (Stage.schedule 1 1) (Stage.init [ascii "a/bcd.jpg"]))
      = some [GoError.errorString (ascii "error getting image: a/bcd.jpg: NoSuchKey")]
    ∧ handleErrors [GoError.errorString (ascii "error getting image: a/bcd.jpg: NoSuchKey")]
      = none
    ∧ Option.map (fun s => (s.agg, s.crashed))
        (Handler.run
          [HandlerAction.main, HandlerAction.stageKey,
           HandlerAction.stageErr
             (GoError.errorString (ascii "error getting image: a/bcd.jpg: NoSuchKey"))]
          (Handler.init [ascii "a/bcd.jpg"]))
      = some (AggPc.panicked, true) := by
  refine ⟨?_, by decide⟩
  intro download bucket key e r h
  obtain ⟨msg, rfl⟩ := getImage_error_is_errorString download bucket key e h
  rfl

theorem Handler.step_errResultChan (a : HandlerAction) (s s1 : Handler)
    (h : Handler.step a s = some s1) (hq : s.errResultChan = [])
    (hc : s.errResultClosed = false) (hm : ∀ r, s.main ≠ MainPc.returned r) :
    s1.errResultChan = [] ∧ s1.errResultClosed = false ∧ ∀ r, s1.main ≠ MainPc.returned r := by
  unfold Handler.step at h
  split at h
  · cases h
  · cases a with
    | main =>
      simp only [Handler.stepMain] at h
      split at h
      · split at h <;> cases h <;> exact ⟨hq, hc, by intro r hr; cases hr⟩
      · cases h; exact ⟨hq, hc, by intro r hr; cases hr⟩
      · split at h
        · cases h; exact ⟨hq, hc, by intro r hr; cases hr⟩
        · cases h
      · cases h; exact ⟨hq, hc, by intro r hr; cases hr⟩
      · rw [hq, hc] at h
        simp at h
      · cases h
    | aggregator =>
      simp only [Handler.stepAggregator] at h
      split at h
      · split at h
        · cases h; exact ⟨hq, hc, hm⟩
        · cases h
      · cases h
    | stageKey =>
      simp only at h
      split at h
      · cases h; exact ⟨hq, hc, hm⟩
      · cases h
    | stageErr err =>
      simp only [Handler.stepStageErr] at h
      split at h
      · cases h; exact ⟨hq, hc, hm⟩
      · split at h
        · split at h <;> cases h <;> exact ⟨hq, hc, hm⟩
        · cases h
    | stageOut image =>
      simp only at h
      split at h
      · cases h; exact ⟨hq, hc, hm⟩
      · split at h
        · cases h; exact ⟨hq, hc, hm⟩
        · cases h
    | stageClose =>
      simp only at h
      split at h <;> cases h <;> exact ⟨hq, hc, hm⟩

theorem Handler.run_errResultChan (acts : List HandlerAction) (s s1 : Handler)
    (h : Handler.run acts s = some s1) (hq : s.errResultChan = [])
    (hc : s.errResultClosed = false) (hm : ∀ r, s.main ≠ MainPc.returned r) :
    s1.errResultChan = [] ∧ s1.errResultClosed = false ∧ ∀ r, s1.main ≠ MainPc.returned r := by
  induction acts generalizing s with
  | nil => cases h; exact ⟨hq, hc, hm⟩
  | cons a acts ih =>
    unfold Handler.run at h
    split at h
    · cases h
    · rename_i s2 hstep
      obtain ⟨h1, h2, h3⟩ := Handler.step_errResultChan a s s2 hstep hq hc hm
      exact ih s2 h h1 h2 h3

/-- C4 fails on the code.  In no execution of `HandleRequest`, whatever the
event and whatever the stages do, does the call return: nothing is ever sent
on `errResultChan` and nothing closes it.  For the event without records the
run reaches the receive from `errResultChan` with every channel closed and
`handleErrors` returned, its report discarded; there the main goroutine is
blocked for ever. -/
theorem HandleRequest_never_returns :
    (∀ records acts s, Handler.run acts (Handler.init records) = some s →
        s.errResultChan = [] ∧ s.errResultClosed = false ∧ ∀ r, s.main ≠ MainPc.returned r)
    ∧ Handler.run
        [HandlerAction.main, HandlerAction.main, HandlerAction.stageClose, HandlerAction.main,
         HandlerAction.main, HandlerAction.aggregator] (Handler.init [])
      = some { records := [], main := MainPc.awaitingReport,
               agg := AggPc.returned { BatchItemFailures := none },
               keyChan := [], keyClosed := true, finalClosed := true, errClosed := true,
               errResultChan := [], errResultClosed := false, crashed := false }
    ∧ Handler.step HandlerAction.main
        { records := [], main := MainPc.awaitingReport,
          agg := AggPc.returned { BatchItemFailures := none },
          keyChan := [], keyClosed := true, finalClosed := true, errClosed := true,
          errResultChan := [], errResultClosed := false, crashed := false } = none := by
  refine ⟨?_, by decide, by decide⟩
  intro records acts s h
  exact Handler.run_errResultChan acts _ s h rfl rfl (by intro r hr; cases hr)

end Processor
